import Mathlib

/-!
Verification of the timeclock repository (github.com/milochristiansen/timeclock).

The development shallowly embeds the Go sources:

* `Timelog` namespace: the line-oriented time-log parser and serializer
  (src/timelog/timelog.go).  The character scanner it uses
  (`lex.CharReader` from the ledger module) is not part of this repository's
  sources; it is modelled from the spec's Cursor description (spec section 4.1).
  Go's `time.Time` is modelled at the granularity this module observes it:
  a calendar record (year, month, day, hour, minute) in the fixed local zone,
  matching the single layout string `2006/01/02 03:04PM` through which every
  timestamp enters or leaves this module.  `time.ParseInLocation` for that
  fixed layout is modelled after Go's fixed-width parsing rules
  (exact digit counts, range checks, uppercase meridiem).

* `Calc` namespace: sorting, range filters, period derivation, the timecode
  tree with subtree filters (src/timelog/calc.go), and the weekly aggregation
  loop of the report command (main.go).  There `time.Time` is only compared
  and subtracted, so it is modelled as an abstract instant (an integer),
  and the calendar functions `ISOWeek` and `Weekday` used by the aggregator
  are abstracted as parameters.
-/

set_option maxHeartbeats 1000000

deriving instance DecidableEq for Except

namespace Timelog

/-- Characters of a Go string, as a list of runes. -/
abbrev Str := List Char

/-- The scanner state.  Modelled from the spec: the Cursor of spec section 4.1
(the `lex.CharReader` of the ledger module, which is not among this
repository's sources).  `input` is the unread remainder (its head is the
current character), `L` the 1-based current line number. -/
structure CharReader where
  input : Str
  L : Nat
deriving DecidableEq, Repr

/-- End-of-input flag of the Cursor. -/
def CharReader.EOF (cr : CharReader) : Bool := cr.input.isEmpty

/-- The Cursor's current character; an arbitrary non-grammar character
once the input is exhausted. -/
def CharReader.C (cr : CharReader) : Char := cr.input.headD (Char.ofNat 0)

/-- Line-number bookkeeping: consuming a newline moves to the next line. -/
def bump (c : Char) (L : Nat) : Nat := if c = '\n' then L + 1 else L

/-- Advance one character (no-op at end of input). -/
def CharReader.Next (cr : CharReader) : CharReader :=
  match cr.input with
  | [] => cr
  | c :: rest => ⟨rest, bump c cr.L⟩

/-- Helper for `CharReader.Eat` recursing over the unread input. -/
def eatL (set : Str) : Str → Nat → CharReader
  | [], L => ⟨[], L⟩
  | c :: rest, L => if c ∈ set then eatL set rest (bump c L) else ⟨c :: rest, L⟩

/-- Consume a run of characters drawn from `set` (spec section 4.1 (a)). -/
def CharReader.Eat (cr : CharReader) (set : Str) : CharReader :=
  eatL set cr.input cr.L

/-- Helper for `CharReader.EatUntil`. -/
def eatUntilL (set : Str) : Str → Nat → CharReader
  | [], L => ⟨[], L⟩
  | c :: rest, L => if c ∈ set then ⟨c :: rest, L⟩ else eatUntilL set rest (bump c L)

/-- Skip forward until a character from `set` is current, without consuming
it (spec section 4.1 (b)). -/
def CharReader.EatUntil (cr : CharReader) (set : Str) : CharReader :=
  eatUntilL set cr.input cr.L

/-- Helper for `CharReader.ReadUntil`. -/
def readUntilL (set : Str) : Str → Nat → Str → (Str × CharReader)
  | [], L, buf => (buf, ⟨[], L⟩)
  | c :: rest, L, buf =>
    if c ∈ set ∨ c = '\n' then (buf, ⟨c :: rest, L⟩)
    else readUntilL set rest (bump c L) (buf ++ [c])

/-- Accumulate characters into `buf` until a delimiter from `set` is seen,
leaving the delimiter current (spec section 4.1 (c)).  A newline always
stops the read as well: spec section 4.2 states that a newline reached
before `]` signals the Malformed error, which requires the read of a code
block to stop at the end of the line. -/
def CharReader.ReadUntil (cr : CharReader) (set : Str) (buf : Str) : Str × CharReader :=
  readUntilL set cr.input cr.L buf

/-- Test whether the current character belongs to `set`, without consuming
(spec section 4.1 (d)). -/
def CharReader.Match (cr : CharReader) (set : Str) : Bool :=
  match cr.input with
  | [] => false
  | c :: _ => c ∈ set

/-- Helper for `CharReader.ReadMatchLimit`: consume at most `n` characters
from `set`, returning how many were consumed. -/
def rmlL (set : Str) : Nat → Str → Nat → Str → (Nat × Str × CharReader)
  | 0, input, L, buf => (0, buf, ⟨input, L⟩)
  | _ + 1, [], L, buf => (0, buf, ⟨[], L⟩)
  | n + 1, c :: rest, L, buf =>
    if c ∈ set then
      let r := rmlL set n rest (bump c L) (buf ++ [c])
      (r.1 + 1, r.2)
    else (0, buf, ⟨c :: rest, L⟩)

/-- Consume between 0 and `n` characters from `set` into `buf`, reporting
whether at least one was consumed (spec section 4.1 (e)). -/
def CharReader.ReadMatchLimit (cr : CharReader) (set : Str) (buf : Str) (n : Nat) :
    Bool × Str × CharReader :=
  let r := rmlL set n cr.input cr.L buf
  (decide (0 < r.1), r.2)

/-- A timestamp as this module observes it: the fields of the fixed layout
`2006/01/02 03:04PM` in the local zone (`time.Time` at minute precision). -/
structure DateTime where
  year : Nat
  month : Nat
  day : Nat
  hour : Nat
  minute : Nat
deriving DecidableEq, Repr

/-- The character for a decimal digit value. -/
def digitChar (n : Nat) : Char := Char.ofNat (48 + n)

/-- Fuel-indexed decimal rendering; any fuel at least `n` suffices because
`n / 10 < n` for positive `n`. -/
def natCharsAux : Nat → Nat → Str
  | 0, _ => []
  | _ + 1, 0 => []
  | f + 1, n + 1 => natCharsAux f ((n + 1) / 10) ++ [digitChar ((n + 1) % 10)]

/-- Decimal digit characters of a natural number, most significant first
(empty for zero; always used under zero padding below). -/
def natChars (n : Nat) : Str := natCharsAux n n

/-- Left-pad with `c` to width `w`, as Go's format verbs do. -/
def padLeft (c : Char) (w : Nat) (s : Str) : Str :=
  List.replicate (w - s.length) c ++ s

/-- A number rendered zero-padded to width `w`, as Go's reference-layout
formatter renders the numeric fields of a timestamp. -/
def formatNum (w : Nat) (n : Nat) : Str := padLeft '0' w (natChars n)

/-- Go's rendering of a timestamp with layout `2006/01/02 03:04PM`:
zero-padded fields, 12-hour clock (0 renders as 12), uppercase meridiem. -/
def formatTime (t : DateTime) : Str :=
  formatNum 4 t.year ++ '/' :: formatNum 2 t.month ++ '/' :: formatNum 2 t.day
    ++ ' ' :: formatNum 2 ((if t.hour % 12 = 0 then 12 else t.hour % 12))
    ++ ':' :: formatNum 2 t.minute
    ++ [(if 12 ≤ t.hour then 'P' else 'A'), 'M']

/-- Decimal value of a digit character. -/
def digitVal (c : Char) : Nat := c.toNat - 48

/-- Read exactly two digit characters (Go's fixed-width `getnum`). -/
def getnum2 : Str → Option (Nat × Str)
  | a :: b :: rest =>
    if a.isDigit ∧ b.isDigit then some (10 * digitVal a + digitVal b, rest) else none
  | _ => none

/-- Read exactly four digit characters (Go's fixed-width four-digit year). -/
def getnum4 : Str → Option (Nat × Str)
  | a :: b :: c :: d :: rest =>
    if a.isDigit ∧ b.isDigit ∧ c.isDigit ∧ d.isDigit then
      some (1000 * digitVal a + 100 * digitVal b + 10 * digitVal c + digitVal d, rest)
    else none
  | _ => none

/-- Expect a literal character. -/
def expectChar (c : Char) : Str → Option Str
  | d :: rest => if d = c then some rest else none
  | [] => none

/-- Go's leap-year rule. -/
def isLeap (y : Nat) : Bool := y % 4 = 0 ∧ (y % 100 ≠ 0 ∨ y % 400 = 0)

/-- Days in a month, as Go's parser uses to range-check the day field. -/
def daysIn (m y : Nat) : Nat :=
  if m = 2 then (if isLeap y then 29 else 28)
  else if m = 4 ∨ m = 6 ∨ m = 9 ∨ m = 11 then 30
  else 31

/-- Go's `time.ParseInLocation` specialised to the fixed layout
`2006/01/02 03:04PM`: exact digit counts, literal separators, uppercase
meridiem, range checks on every field, and the 12-hour to 24-hour
adjustment. Returns `none` exactly when Go returns a parse error. -/
def goParseTime (s : Str) : Option DateTime :=
  match getnum4 s with
  | none => none
  | some (y, s) =>
  match expectChar '/' s with
  | none => none
  | some s =>
  match getnum2 s with
  | none => none
  | some (mo, s) =>
  match expectChar '/' s with
  | none => none
  | some s =>
  match getnum2 s with
  | none => none
  | some (d, s) =>
  match expectChar ' ' s with
  | none => none
  | some s =>
  match getnum2 s with
  | none => none
  | some (h12, s) =>
  match expectChar ':' s with
  | none => none
  | some s =>
  match getnum2 s with
  | none => none
  | some (mi, s) =>
  match (match s with
         | ['P', 'M'] => some true
         | ['A', 'M'] => some false
         | _ => none) with
  | none => none
  | some pm =>
  if 1 ≤ mo ∧ mo ≤ 12 ∧ 1 ≤ d ∧ d ≤ daysIn mo y ∧ h12 ≤ 12 ∧ mi ≤ 59 then
    some ⟨y, mo, d,
      (if pm then (if h12 < 12 then h12 + 12 else h12) else (if h12 = 12 then 0 else h12)), mi⟩
  else none

/-- The parser's error kinds (`ErrBadDate`, `ErrUnexpectedEnd`, `ErrMalformed`
of timelog.go), plus `TimeErr` for an error returned by Go's
`time.ParseInLocation` on the collected date text (a `*time.ParseError`,
which carries no line number). -/
inductive ParseErr where
  | BadDate (line : Nat)
  | UnexpectedEnd (line : Nat)
  | Malformed (line : Nat)
  | TimeErr
deriving DecidableEq, Repr

/-- The line number an error is tagged with, when it carries one. -/
def ParseErr.lineTag : ParseErr → Option Nat
  | .BadDate l => some l
  | .UnexpectedEnd l => some l
  | .Malformed l => some l
  | .TimeErr => none

def wsSet : Str := [' ', '\t']
def nlSet : Str := ['\n']
def closeSet : Str := [']']
def digitsSet : Str := ['0', '1', '2', '3', '4', '5', '6', '7', '8', '9']
def sepSet : Str := ['/', '-', '.']
def apSet : Str := ['a', 'p', 'A', 'P']
def mSet : Str := ['m', 'M']

/-- One digit-group step of `parseDate`: `ReadMatchLimit` into the date
buffer, `ErrBadDate` at the current line if nothing was consumed. -/
def numStep (set : Str) (n : Nat) (date : Str) (cr : CharReader) :
    Except ParseErr (Str × CharReader) :=
  let r := cr.ReadMatchLimit set date n
  if r.1 then .ok r.2 else .error (.BadDate r.2.2.L)

/-- One separator step of `parseDate`: `Match` against `set`, append the
normalised literal `lit` to the date buffer, advance. -/
def sepStep (set : Str) (lit : Char) (date : Str) (cr : CharReader) :
    Except ParseErr (Str × CharReader) :=
  if cr.Match set then .ok (date ++ [lit], cr.Next) else .error (.BadDate cr.L)

/-- Sequential composition of the `parseDate` steps: stop at the first
error, otherwise pass the grown date buffer and advanced reader on. -/
def stepBind (x : Except ParseErr (Str × CharReader))
    (f : Str → CharReader → Except ParseErr α) : Except ParseErr α :=
  match x with
  | .error e => .error e
  | .ok (d, cr) => f d cr

/-- `parseDate` of timelog.go: positional digit groups joined by normalised
separators, then the collected text is handed to `time.ParseInLocation`. -/
def parseDate (cr0 : CharReader) : Except ParseErr (DateTime × CharReader) :=
  stepBind (numStep digitsSet 4 [] cr0) fun d cr =>
  stepBind (sepStep sepSet '/' d cr) fun d cr =>
  stepBind (numStep digitsSet 2 d cr) fun d cr =>
  stepBind (sepStep sepSet '/' d cr) fun d cr =>
  stepBind (numStep digitsSet 2 d cr) fun d cr =>
  stepBind (sepStep [' '] ' ' d cr) fun d cr =>
  stepBind (numStep digitsSet 2 d cr) fun d cr =>
  stepBind (sepStep [':'] ':' d cr) fun d cr =>
  stepBind (numStep digitsSet 2 d cr) fun d cr =>
  stepBind (numStep apSet 1 d cr) fun d cr =>
  stepBind (numStep mSet 1 d cr) fun d cr =>
  match goParseTime d with
  | some t => .ok (t, cr)
  | none => .error .TimeErr

/-- Go's `ln[i] != ' ' && ln[i] != '\t'` test, negated. -/
def isWS (c : Char) : Bool := c == ' ' || c == '\t'

/-- The trailing-trim loop of `readUntilTrimmed`, verbatim: the loop index
runs from `len-1` down to `1`, so the first character is never dropped. -/
def trimTrailing : Str → Str
  | [] => []
  | c :: rest => c :: (rest.reverse.dropWhile isWS).reverse

/-- The leading-trim loop of `readUntilTrimmed`, verbatim: the index keeps
advancing while the list shrinks, so the loop stops once `i` reaches the
current length even if whitespace remains. -/
def trimLeadingGo : Nat → Str → Str
  | _, [] => []
  | i, c :: rest =>
    if i < (c :: rest).length then
      if isWS c then trimLeadingGo (i + 1) rest else c :: rest
    else c :: rest

/-- `readUntilTrimmed` of timelog.go: read up to a delimiter, error with
`ErrUnexpectedEnd` if the input ran out, else trim both ends. -/
def readUntilTrimmed (cr : CharReader) (chars : Str) : Except ParseErr (Str × CharReader) :=
  let r := cr.ReadUntil chars []
  if r.2.EOF then .error (.UnexpectedEnd r.2.L)
  else .ok (trimLeadingGo 0 (trimTrailing r.1), r.2)

/-- The `Event` record of timelog.go. -/
structure Event where
  At : DateTime
  Code : Str
  Desc : Str
deriving DecidableEq, Repr

/-- `TimeLog` of timelog.go: an ordered event sequence. -/
abbrev TimeLog := List Event

/-- The optional code block of an event line (`if cr.C == '['` in
`parseTimeLog`): consume `[`, eat whitespace, read up to `]` trimmed,
signal `ErrMalformed` when the read stopped at a newline instead, and
step past the `]`.  Without a `[`, the code stays empty. -/
def codeStep (cr2 : CharReader) : Except ParseErr (Str × CharReader) :=
  if cr2.C = '[' then
    match readUntilTrimmed ((cr2.Next).Eat wsSet) closeSet with
    | .error e => .error e
    | .ok (code, cr3) =>
      if cr3.C = '\n' then .error (.Malformed cr3.L)
      else .ok (code, cr3.Next)
  else .ok ([], cr2)

/-- The event-line body of the `parseTimeLog` loop: date, whitespace,
optional bracketed code, whitespace, description, trailing newline.
Returns the event together with the reader just past the consumed
newline. -/
def parseEvent (cr0 : CharReader) : Except ParseErr (Event × CharReader) :=
  match parseDate cr0 with
  | .error e => .error e
  | .ok (date, cr1) =>
    let cr2 := cr1.Eat wsSet
    if cr2.EOF then .error (.UnexpectedEnd cr2.L)
    else
      match codeStep cr2 with
      | .error e => .error e
      | .ok (code, cr4) =>
        let cr5 := cr4.Eat wsSet
        if cr5.EOF then .error (.UnexpectedEnd cr5.L)
        else
          match readUntilTrimmed cr5 nlSet with
          | .error e => .error e
          | .ok (desc, cr6) => .ok (⟨date, code, desc⟩, cr6.Next)

theorem eatL_len_le (set : Str) (l : Str) (L : Nat) :
    (eatL set l L).input.length ≤ l.length := by
  induction l generalizing L with
  | nil => simp [eatL]
  | cons c rest ih =>
    simp only [eatL]
    split
    · exact le_trans (ih _) (Nat.le_succ _)
    · exact le_refl _

theorem eatUntilL_len_le (set : Str) (l : Str) (L : Nat) :
    (eatUntilL set l L).input.length ≤ l.length := by
  induction l generalizing L with
  | nil => simp [eatUntilL]
  | cons c rest ih =>
    simp only [eatUntilL]
    split
    · exact le_refl _
    · exact le_trans (ih _) (Nat.le_succ _)

theorem readUntilL_len_le (set : Str) (l : Str) (L : Nat) (buf : Str) :
    (readUntilL set l L buf).2.input.length ≤ l.length := by
  induction l generalizing L buf with
  | nil => simp [readUntilL]
  | cons c rest ih =>
    simp only [readUntilL]
    split
    · exact le_refl _
    · exact le_trans (ih _ _) (Nat.le_succ _)

theorem rmlL_len_le (set : Str) (n : Nat) (l : Str) (L : Nat) (buf : Str) :
    (rmlL set n l L buf).2.2.input.length ≤ l.length := by
  induction n generalizing l L buf with
  | zero => simp [rmlL]
  | succ n ih =>
    cases l with
    | nil => simp [rmlL]
    | cons c rest =>
      simp only [rmlL]
      split
      · exact le_trans (ih _ _ _) (Nat.le_succ _)
      · exact le_refl _

theorem Next_len_le (cr : CharReader) : cr.Next.input.length ≤ cr.input.length := by
  cases h : cr.input <;> simp [CharReader.Next, h]

theorem Next_len_lt (cr : CharReader) (h : cr.input ≠ []) :
    cr.Next.input.length < cr.input.length := by
  cases hi : cr.input with
  | nil => exact absurd hi h
  | cons c rest => simp [CharReader.Next, hi]

theorem Eat_len_le (cr : CharReader) (set : Str) :
    (cr.Eat set).input.length ≤ cr.input.length := eatL_len_le set cr.input cr.L

theorem EatUntil_len_le (cr : CharReader) (set : Str) :
    (cr.EatUntil set).input.length ≤ cr.input.length := eatUntilL_len_le set cr.input cr.L

theorem numStep_len_le (set : Str) (n : Nat) (date : Str) (cr : CharReader)
    (d' : Str) (cr' : CharReader) (h : numStep set n date cr = .ok (d', cr')) :
    cr'.input.length ≤ cr.input.length := by
  simp only [numStep, CharReader.ReadMatchLimit] at h
  split at h
  · rw [Except.ok.injEq] at h
    have h2 : (rmlL set n cr.input cr.L date).2.2 = cr' := congrArg Prod.snd h
    rw [← h2]
    exact rmlL_len_le set n cr.input cr.L date
  · cases h

theorem sepStep_len_le (set : Str) (lit : Char) (date : Str) (cr : CharReader)
    (d' : Str) (cr' : CharReader) (h : sepStep set lit date cr = .ok (d', cr')) :
    cr'.input.length ≤ cr.input.length := by
  simp only [sepStep] at h
  split at h
  · cases h
    exact Next_len_le cr
  · cases h

theorem stepBind_ok (x : Except ParseErr (Str × CharReader))
    (f : Str → CharReader → Except ParseErr α) (y : α)
    (h : stepBind x f = .ok y) : ∃ d cr, x = .ok (d, cr) ∧ f d cr = .ok y := by
  cases x with
  | error e => simp [stepBind] at h
  | ok p => exact ⟨p.1, p.2, rfl, by simpa [stepBind] using h⟩

theorem parseDate_len_le (cr : CharReader) (t : DateTime) (cr' : CharReader)
    (h : parseDate cr = .ok (t, cr')) : cr'.input.length ≤ cr.input.length := by
  unfold parseDate at h
  obtain ⟨d1, c1, h1, h⟩ := stepBind_ok _ _ _ h
  obtain ⟨d2, c2, h2, h⟩ := stepBind_ok _ _ _ h
  obtain ⟨d3, c3, h3, h⟩ := stepBind_ok _ _ _ h
  obtain ⟨d4, c4, h4, h⟩ := stepBind_ok _ _ _ h
  obtain ⟨d5, c5, h5, h⟩ := stepBind_ok _ _ _ h
  obtain ⟨d6, c6, h6, h⟩ := stepBind_ok _ _ _ h
  obtain ⟨d7, c7, h7, h⟩ := stepBind_ok _ _ _ h
  obtain ⟨d8, c8, h8, h⟩ := stepBind_ok _ _ _ h
  obtain ⟨d9, c9, h9, h⟩ := stepBind_ok _ _ _ h
  obtain ⟨d10, c10, h10, h⟩ := stepBind_ok _ _ _ h
  obtain ⟨d11, c11, h11, h⟩ := stepBind_ok _ _ _ h
  have e1 := numStep_len_le _ _ _ _ _ _ h1
  have e2 := sepStep_len_le _ _ _ _ _ _ h2
  have e3 := numStep_len_le _ _ _ _ _ _ h3
  have e4 := sepStep_len_le _ _ _ _ _ _ h4
  have e5 := numStep_len_le _ _ _ _ _ _ h5
  have e6 := sepStep_len_le _ _ _ _ _ _ h6
  have e7 := numStep_len_le _ _ _ _ _ _ h7
  have e8 := sepStep_len_le _ _ _ _ _ _ h8
  have e9 := numStep_len_le _ _ _ _ _ _ h9
  have e10 := numStep_len_le _ _ _ _ _ _ h10
  have e11 := numStep_len_le _ _ _ _ _ _ h11
  have hcr : cr' = c11 := by
    split at h
    · cases h; rfl
    · cases h
  subst hcr
  omega

theorem readUntilTrimmed_ok (cr : CharReader) (chars : Str) (s : Str) (cr' : CharReader)
    (h : readUntilTrimmed cr chars = .ok (s, cr')) :
    cr'.input.length ≤ cr.input.length ∧ cr'.input ≠ [] := by
  simp only [readUntilTrimmed, CharReader.ReadUntil] at h
  split at h
  · cases h
  · next hne =>
    cases h
    refine ⟨readUntilL_len_le _ _ _ _, ?_⟩
    simpa [CharReader.EOF, List.isEmpty_iff] using hne

theorem codeStep_len_le (cr2 : CharReader) (code : Str) (cr4 : CharReader)
    (h : codeStep cr2 = .ok (code, cr4)) : cr4.input.length ≤ cr2.input.length := by
  simp only [codeStep] at h
  split at h
  · split at h
    · cases h
    · next code3 cr3 hru =>
      split at h
      · cases h
      · rw [Except.ok.injEq] at h
        have h4 : cr3.Next.input.length = cr4.input.length :=
          congrArg (fun x => x.input.length) (congrArg Prod.snd h)
        have h3 := (readUntilTrimmed_ok _ _ _ _ hru).1
        have h5 := Eat_len_le cr2.Next wsSet
        have h6 := Next_len_le cr2
        have h7 := Next_len_le cr3
        omega
  · rw [Except.ok.injEq] at h
    have h4 : cr2.input.length = cr4.input.length :=
      congrArg (fun x => x.input.length) (congrArg Prod.snd h)
    omega

theorem parseEvent_len_lt (cr : CharReader) (ev : Event) (cr' : CharReader)
    (h : parseEvent cr = .ok (ev, cr')) : cr'.input.length < cr.input.length := by
  simp only [parseEvent] at h
  split at h
  · cases h
  · next date cr1 hd =>
    split at h
    · cases h
    · split at h
      · cases h
      · next code cr4 hcb =>
        split at h
        · cases h
        · split at h
          · cases h
          · next desc cr6 hrd =>
            rw [Except.ok.injEq] at h
            have hcr' : cr6.Next.input.length = cr'.input.length :=
              congrArg (fun x => x.input.length) (congrArg Prod.snd h)
            obtain ⟨h6le, h6ne⟩ := readUntilTrimmed_ok _ _ _ _ hrd
            have hnx := Next_len_lt cr6 h6ne
            have h5 := Eat_len_le cr4 wsSet
            have h4 := codeStep_len_le _ _ _ hcb
            have h2 := Eat_len_le cr1 wsSet
            have h1 := parseDate_len_le _ _ _ hd
            omega

theorem C_ne_nil (cr : CharReader) (c : Char) (hc : c ≠ Char.ofNat 0) (h : cr.C = c) :
    cr.input ≠ [] := by
  intro hnil
  rw [CharReader.C, hnil] at h
  exact hc h.symm

theorem input_eq_cons_of_C (cr : CharReader) (c : Char) (hc : c ≠ Char.ofNat 0)
    (h : cr.C = c) : ∃ rest, cr.input = c :: rest := by
  cases hi : cr.input with
  | nil => exact absurd hi (C_ne_nil cr c hc h)
  | cons a rest =>
    rw [CharReader.C, hi, List.headD_cons] at h
    subst h
    exact ⟨rest, rfl⟩

theorem eatUntilL_cons_not_mem (set : Str) (c : Char) (rest : Str) (L : Nat)
    (h : c ∉ set) : eatUntilL set (c :: rest) L = eatUntilL set rest (bump c L) := by
  simp [eatUntilL, h]

/-- The `parseTimeLog` loop of timelog.go: skip leading whitespace, blank
lines and `#` comments, otherwise parse one event line and continue; the
first error aborts the whole parse with no event list. -/
def parseLoop (cr : CharReader) : Except ParseErr TimeLog :=
  if hnil : cr.input = [] then .ok []
  else
    if h1 : (cr.Eat wsSet).C = '\n' then parseLoop (cr.Eat wsSet).Next
    else if h2 : (cr.Eat wsSet).C = '#' then parseLoop (((cr.Eat wsSet).EatUntil nlSet).Next)
    else
      match hev : parseEvent (cr.Eat wsSet) with
      | .error e => .error e
      | .ok (ev, cr2) =>
        match parseLoop cr2 with
        | .ok evs => .ok (ev :: evs)
        | .error e => .error e
termination_by cr.input.length
decreasing_by
  · have hne : (cr.Eat wsSet).input ≠ [] := C_ne_nil _ _ (by decide) h1
    have ha := Next_len_lt (cr.Eat wsSet) hne
    have hb := Eat_len_le cr wsSet
    omega
  · obtain ⟨rest, hrest⟩ := input_eq_cons_of_C (cr.Eat wsSet) '#' (by decide) h2
    have ha : ((cr.Eat wsSet).EatUntil nlSet).input.length ≤ rest.length := by
      rw [CharReader.EatUntil, hrest, eatUntilL_cons_not_mem _ _ _ _ (by decide)]
      exact eatUntilL_len_le _ _ _
    have hb := Next_len_le ((cr.Eat wsSet).EatUntil nlSet)
    have hc := Eat_len_le cr wsSet
    have hd : (cr.Eat wsSet).input.length = rest.length + 1 := by rw [hrest]; rfl
    omega
  · have ha := parseEvent_len_lt _ _ _ hev
    have hb := Eat_len_le cr wsSet
    omega

/-- Fuel-indexed twin of `parseLoop` with identical branch structure; the
loop consumes at least one character per iteration, so any fuel above the
input length makes it agree with `parseLoop` (`parseLoopF_eq`).  It exists
so that concrete runs of the parser reduce inside the kernel. -/
def parseLoopF : Nat → CharReader → Except ParseErr TimeLog
  | 0, cr => .error (.UnexpectedEnd cr.L)
  | fuel + 1, cr =>
    if _hnil : cr.input = [] then .ok []
    else
      if _h1 : (cr.Eat wsSet).C = '\n' then parseLoopF fuel (cr.Eat wsSet).Next
      else if _h2 : (cr.Eat wsSet).C = '#' then parseLoopF fuel (((cr.Eat wsSet).EatUntil nlSet).Next)
      else
        match parseEvent (cr.Eat wsSet) with
        | .error e => .error e
        | .ok (ev, cr2) =>
          match parseLoopF fuel cr2 with
          | .ok evs => .ok (ev :: evs)
          | .error e => .error e

theorem parseLoopF_eq (fuel : Nat) (cr : CharReader) (hf : cr.input.length < fuel) :
    parseLoopF fuel cr = parseLoop cr := by
  induction fuel generalizing cr with
  | zero => omega
  | succ f ih =>
    rw [parseLoop]
    by_cases hnil : cr.input = []
    · simp [parseLoopF, hnil]
    · by_cases h1 : (cr.Eat wsSet).C = '\n'
      · have hne : (cr.Eat wsSet).input ≠ [] := C_ne_nil _ _ (by decide) h1
        have ha := Next_len_lt (cr.Eat wsSet) hne
        have hb := Eat_len_le cr wsSet
        simp only [parseLoopF, hnil, h1, dif_neg, not_false_iff, dif_pos]
        exact ih _ (by omega)
      · by_cases h2 : (cr.Eat wsSet).C = '#'
        · obtain ⟨rest, hrest⟩ := input_eq_cons_of_C (cr.Eat wsSet) '#' (by decide) h2
          have ha : ((cr.Eat wsSet).EatUntil nlSet).input.length ≤ rest.length := by
            rw [CharReader.EatUntil, hrest, eatUntilL_cons_not_mem _ _ _ _ (by decide)]
            exact eatUntilL_len_le _ _ _
          have hb := Next_len_le ((cr.Eat wsSet).EatUntil nlSet)
          have hc := Eat_len_le cr wsSet
          have hd : (cr.Eat wsSet).input.length = rest.length + 1 := by rw [hrest]; rfl
          simp only [parseLoopF, hnil, h1, h2, dif_neg, not_false_iff, dif_pos]
          exact ih _ (by omega)
        · simp only [parseLoopF, hnil, h1, h2, dif_neg, not_false_iff]
          cases hev : parseEvent (cr.Eat wsSet) with
          | error e => rfl
          | ok p =>
            obtain ⟨ev, cr2⟩ := p
            have ha := parseEvent_len_lt _ _ _ hev
            have hb := Eat_len_le cr wsSet
            simp only [ih cr2 (by omega)]

/-- `parseTimeLog` applied to a fresh reader on line 1
(`ParseTimeLogString` of timelog.go). -/
def parseTimeLog (input : Str) : Except ParseErr TimeLog := parseLoop ⟨input, 1⟩

theorem parseTimeLog_eval (input : Str) :
    parseTimeLog input = parseLoopF (input.length + 1) ⟨input, 1⟩ :=
  (parseLoopF_eq _ _ (Nat.lt_succ_self _)).symm

/-- `ParseTimeLogString` of timelog.go, on a host string. -/
def ParseTimeLogString (s : String) : Except ParseErr TimeLog := parseTimeLog s.data

/-- A calendar-valid timestamp of the log's layout: the shape any value of
Go's `time.Time` formatted and reparsed through `2006/01/02 03:04PM`
satisfies (four-digit year, in-range month, day, hour and minute, and
minute precision, which the `DateTime` record has by construction). -/
def validTime (t : DateTime) : Prop :=
  t.year ≤ 9999 ∧ 1 ≤ t.month ∧ t.month ≤ 12 ∧ 1 ≤ t.day ∧ t.day ≤ daysIn t.month t.year ∧
    t.hour ≤ 23 ∧ t.minute ≤ 59

instance (t : DateTime) : Decidable (validTime t) := by
  unfold validTime
  infer_instance

theorem digitChar_isDigit (d : Nat) (h : d < 10) : (digitChar d).isDigit = true := by
  interval_cases d <;> decide

theorem digitVal_digitChar (d : Nat) (h : d < 10) : digitVal (digitChar d) = d := by
  interval_cases d <;> decide

theorem digitChar_mem (d : Nat) (h : d < 10) : digitChar d ∈ digitsSet := by
  interval_cases d <;> decide

theorem digitsSet_props : ∀ c ∈ digitsSet,
    c ∉ wsSet ∧ c ≠ '\n' ∧ c ≠ '#' ∧ c ≠ Char.ofNat 0 ∧ isWS c = false := by decide

theorem natCharsAux_zero (f : Nat) : natCharsAux f 0 = [] := by cases f <;> rfl

theorem natCharsAux_pos (f n : Nat) (h0 : 0 < n) (hf : n ≤ f) :
    natCharsAux f n = natCharsAux (f - 1) (n / 10) ++ [digitChar (n % 10)] := by
  cases f with
  | zero => omega
  | succ f =>
    cases n with
    | zero => omega
    | succ n => rfl

theorem formatNum2_eq (n : Nat) (h : n < 100) :
    formatNum 2 n = [digitChar (n / 10), digitChar (n % 10)] := by
  rcases Nat.eq_zero_or_pos n with h0 | h0
  · subst h0; decide
  · by_cases h1 : n < 10
    · have e1 : natChars n = [digitChar (n % 10)] := by
        rw [natChars, natCharsAux_pos n n h0 le_rfl, show n / 10 = 0 by omega,
          natCharsAux_zero]
        rfl
      rw [formatNum, e1, padLeft, show n / 10 = 0 by omega]
      rw [show (2 - List.length [digitChar (n % 10)]) = 1 from rfl]
      rw [show digitChar 0 = '0' from by decide]
      rfl
    · have e1 : natChars n = [digitChar (n / 10 % 10), digitChar (n % 10)] := by
        rw [natChars, natCharsAux_pos n n h0 le_rfl,
          natCharsAux_pos (n - 1) (n / 10) (by omega) (by omega),
          show n / 10 / 10 = 0 by omega, natCharsAux_zero]
        rfl
      rw [formatNum, e1, padLeft, show n / 10 % 10 = n / 10 by omega]
      rfl

theorem formatNum4_eq (n : Nat) (h : n < 10000) :
    formatNum 4 n =
      [digitChar (n / 1000), digitChar (n / 100 % 10), digitChar (n / 10 % 10),
        digitChar (n % 10)] := by
  have hc0 : digitChar 0 = '0' := by decide
  rcases Nat.eq_zero_or_pos n with h0 | h0
  · subst h0; decide
  · by_cases h1 : n < 10
    · have e1 : natChars n = [digitChar (n % 10)] := by
        rw [natChars, natCharsAux_pos n n h0 le_rfl, show n / 10 = 0 by omega,
          natCharsAux_zero]
        rfl
      rw [formatNum, e1, padLeft, show n / 1000 = 0 by omega,
        show n / 100 % 10 = 0 by omega, show n / 10 % 10 = 0 by omega]
      rw [show (4 - List.length [digitChar (n % 10)]) = 3 from rfl, hc0]
      rfl
    · by_cases h2 : n < 100
      · have e1 : natChars n = [digitChar (n / 10 % 10), digitChar (n % 10)] := by
          rw [natChars, natCharsAux_pos n n h0 le_rfl,
            natCharsAux_pos (n - 1) (n / 10) (by omega) (by omega),
            show n / 10 / 10 = 0 by omega, natCharsAux_zero]
          rfl
        rw [formatNum, e1, padLeft, show n / 1000 = 0 by omega,
          show n / 100 % 10 = 0 by omega]
        rw [show (4 - List.length [digitChar (n / 10 % 10), digitChar (n % 10)]) = 2 from rfl,
          hc0]
        rfl
      · by_cases h3 : n < 1000
        · have e1 : natChars n =
              [digitChar (n / 100 % 10), digitChar (n / 10 % 10), digitChar (n % 10)] := by
            rw [natChars, natCharsAux_pos n n h0 le_rfl,
              natCharsAux_pos (n - 1) (n / 10) (by omega) (by omega),
              show n / 10 / 10 = n / 100 by omega,
              natCharsAux_pos (n - 1 - 1) (n / 100) (by omega) (by omega),
              show n / 100 / 10 = 0 by omega, natCharsAux_zero]
            rfl
          rw [formatNum, e1, padLeft, show n / 1000 = 0 by omega]
          rw [show (4 - List.length [digitChar (n / 100 % 10), digitChar (n / 10 % 10),
            digitChar (n % 10)]) = 1 from rfl, hc0]
          rfl
        · have e1 : natChars n = [digitChar (n / 1000 % 10), digitChar (n / 100 % 10),
              digitChar (n / 10 % 10), digitChar (n % 10)] := by
            rw [natChars, natCharsAux_pos n n h0 le_rfl,
              natCharsAux_pos (n - 1) (n / 10) (by omega) (by omega),
              show n / 10 / 10 = n / 100 by omega,
              natCharsAux_pos (n - 1 - 1) (n / 100) (by omega) (by omega),
              show n / 100 / 10 = n / 1000 by omega,
              natCharsAux_pos (n - 1 - 1 - 1) (n / 1000) (by omega) (by omega),
              show n / 1000 / 10 = 0 by omega, natCharsAux_zero]
            rfl
          rw [formatNum, e1, padLeft, show n / 1000 % 10 = n / 1000 by omega]
          rw [show (4 - List.length [digitChar (n / 1000), digitChar (n / 100 % 10),
            digitChar (n / 10 % 10), digitChar (n % 10)]) = 0 from rfl]
          rfl

theorem getnum2_digits (a b : Nat) (ha : a < 10) (hb : b < 10) (r : Str) :
    getnum2 (digitChar a :: digitChar b :: r) = some (10 * a + b, r) := by
  simp [getnum2, digitChar_isDigit a ha, digitChar_isDigit b hb,
    digitVal_digitChar a ha, digitVal_digitChar b hb]

theorem getnum4_digits (a b c d : Nat) (ha : a < 10) (hb : b < 10) (hc : c < 10)
    (hd : d < 10) (r : Str) :
    getnum4 (digitChar a :: digitChar b :: digitChar c :: digitChar d :: r) =
      some (1000 * a + 100 * b + 10 * c + d, r) := by
  simp [getnum4, digitChar_isDigit a ha, digitChar_isDigit b hb, digitChar_isDigit c hc,
    digitChar_isDigit d hd, digitVal_digitChar a ha, digitVal_digitChar b hb,
    digitVal_digitChar c hc, digitVal_digitChar d hd]

theorem getnum2_format (n : Nat) (h : n < 100) (r : Str) :
    getnum2 (formatNum 2 n ++ r) = some (n, r) := by
  rw [formatNum2_eq n h]
  have := getnum2_digits (n / 10) (n % 10) (by omega) (by omega) r
  simpa [show 10 * (n / 10) + n % 10 = n by omega] using this

theorem getnum4_format (n : Nat) (h : n < 10000) (r : Str) :
    getnum4 (formatNum 4 n ++ r) = some (n, r) := by
  rw [formatNum4_eq n h]
  have := getnum4_digits (n / 1000) (n / 100 % 10) (n / 10 % 10) (n % 10)
    (by omega) (by omega) (by omega) (by omega) r
  simpa [show 1000 * (n / 1000) + 100 * (n / 100 % 10) + 10 * (n / 10 % 10) + n % 10 = n
    by omega] using this

theorem expectChar_cons (c : Char) (r : Str) : expectChar c (c :: r) = some r := by
  simp [expectChar]

theorem daysIn_le (mo y : Nat) : daysIn mo y ≤ 31 := by
  rw [daysIn]
  split
  · split <;> omega
  · split <;> omega

theorem goParseTime_format (t : DateTime) (h : validTime t) :
    goParseTime (formatTime t) = some t := by
  obtain ⟨y, mo, d, hr, mi⟩ := t
  obtain ⟨hy, hmo1, hmo2, hd1, hd2, hh, hmi⟩ := h
  simp only at hy hmo1 hmo2 hd1 hd2 hh hmi
  have hd31 : d < 100 := by
    have := daysIn_le mo y
    omega
  have hhh : (if hr % 12 = 0 then 12 else hr % 12) < 100 := by split <;> omega
  have h12le : (if hr % 12 = 0 then 12 else hr % 12) ≤ 12 := by split <;> omega
  rw [formatTime]
  simp only [List.append_assoc, List.cons_append, List.nil_append]
  by_cases hpm : 12 ≤ hr
  · simp only [goParseTime, getnum4_format y (by omega), expectChar_cons,
      getnum2_format mo (by omega), getnum2_format d hd31, getnum2_format _ hhh,
      getnum2_format mi (by omega), if_pos hpm]
    rw [if_pos ⟨hmo1, hmo2, hd1, hd2, h12le, hmi⟩]
    have : (if (if hr % 12 = 0 then 12 else hr % 12) < 12
        then (if hr % 12 = 0 then 12 else hr % 12) + 12
        else (if hr % 12 = 0 then 12 else hr % 12)) = hr := by
      split_ifs <;> omega
    rw [this]
    simp
  · simp only [goParseTime, getnum4_format y (by omega), expectChar_cons,
      getnum2_format mo (by omega), getnum2_format d hd31, getnum2_format _ hhh,
      getnum2_format mi (by omega), if_neg hpm]
    rw [if_pos ⟨hmo1, hmo2, hd1, hd2, h12le, hmi⟩]
    have : (if (if hr % 12 = 0 then 12 else hr % 12) = 12
        then 0 else (if hr % 12 = 0 then 12 else hr % 12)) = hr := by
      split_ifs <;> omega
    rw [this]
    simp

/-- Go's `unicode.IsSpace` on the characters that can appear here (the
ASCII whitespace characters plus NEL and NBSP); `strings.TrimSpace`
removes exactly these from the ends, so a code is skipped by `Codes`
precisely when it consists only of them. -/
def goSpace (c : Char) : Bool :=
  c == ' ' || c == '\t' || c == '\n' || c == Char.ofNat 11 || c == Char.ofNat 12 ||
    c == '\r' || c == Char.ofNat 133 || c == Char.ofNat 160

/-- `CodeLen` of timelog.go: the length of the longest code present in the
log, where `Codes` skips codes that are whitespace-only (`Codes` also
deduplicates via a map, which cannot change the maximum length, and map
iteration order cannot affect a maximum either). -/
def CodeLen (log : TimeLog) : Nat :=
  ((log.filter (fun e => !(e.Code.all goSpace))).map (fun e => e.Code.length)).foldr max 0

/-- One line written by `Format` of timelog.go:
`fmt.Fprintf (w, s [*s] s \n, date, cl, code, desc)` — the date in the
fixed layout, the code left-padded with spaces to width `cl`. -/
def formatLine (cl : Nat) (e : Event) : Str :=
  formatTime e.At ++ ' ' :: '[' :: padLeft ' ' cl e.Code ++ ']' :: ' ' :: e.Desc ++ ['\n']

/-- `Format` (equivalently `String`) of timelog.go: one line per event,
all codes padded to the width of the longest code in the log.  Writes to
an in-memory buffer cannot fail, so the result is the emitted text. -/
def FormatLog (log : TimeLog) : Str :=
  (log.map (formatLine (CodeLen log))).flatten

theorem bump_ne (c : Char) (L : Nat) (h : c ≠ '\n') : bump c L = L := by
  simp [bump, h]

theorem digitChar_ne_nl (d : Nat) (h : d < 10) : digitChar d ≠ '\n' := by
  interval_cases d <;> decide

theorem digits2_props (a b : Nat) (ha : a < 10) (hb : b < 10) :
    ∀ c ∈ [digitChar a, digitChar b], c ∈ digitsSet ∧ c ≠ '\n' := by
  intro c hc
  rcases List.mem_cons.mp hc with rfl | hc
  · exact ⟨digitChar_mem a ha, digitChar_ne_nl a ha⟩
  rcases List.mem_cons.mp hc with rfl | hc
  · exact ⟨digitChar_mem b hb, digitChar_ne_nl b hb⟩
  · cases hc

theorem digits4_props (a b c d : Nat) (ha : a < 10) (hb : b < 10) (hc : c < 10)
    (hd : d < 10) :
    ∀ e ∈ [digitChar a, digitChar b, digitChar c, digitChar d],
      e ∈ digitsSet ∧ e ≠ '\n' := by
  intro e he
  rcases List.mem_cons.mp he with rfl | he
  · exact ⟨digitChar_mem a ha, digitChar_ne_nl a ha⟩
  rcases List.mem_cons.mp he with rfl | he
  · exact ⟨digitChar_mem b hb, digitChar_ne_nl b hb⟩
  rcases List.mem_cons.mp he with rfl | he
  · exact ⟨digitChar_mem c hc, digitChar_ne_nl c hc⟩
  rcases List.mem_cons.mp he with rfl | he
  · exact ⟨digitChar_mem d hd, digitChar_ne_nl d hd⟩
  · cases he

theorem rmlL_exact (set : Str) (l r buf : Str) (L : Nat)
    (hall : ∀ c ∈ l, c ∈ set ∧ c ≠ '\n') :
    rmlL set l.length (l ++ r) L buf = (l.length, buf ++ l, ⟨r, L⟩) := by
  induction l generalizing buf L with
  | nil => simp [rmlL]
  | cons c cs ih =>
    have hc := hall c (List.mem_cons_self c cs)
    simp only [List.length_cons, List.cons_append, rmlL, if_pos hc.1,
      bump_ne c L hc.2, List.append_eq]
    rw [ih (buf ++ [c]) L (fun x hx => hall x (List.mem_cons_of_mem c hx))]
    simp

theorem numStep_exact (set : Str) (n : Nat) (date l r : Str) (L : Nat)
    (hn : l.length = n) (h0 : l ≠ [])
    (hall : ∀ c ∈ l, c ∈ set ∧ c ≠ '\n') :
    numStep set n date ⟨l ++ r, L⟩ = .ok (date ++ l, ⟨r, L⟩) := by
  subst hn
  have hlen : 0 < l.length := List.length_pos.mpr h0
  simp only [numStep, CharReader.ReadMatchLimit, rmlL_exact set l r date L hall]
  simp [hlen]

theorem numStep_format2 (n : Nat) (h : n < 100) (date r : Str) (L : Nat) :
    numStep digitsSet 2 date ⟨formatNum 2 n ++ r, L⟩ =
      .ok (date ++ formatNum 2 n, ⟨r, L⟩) := by
  rw [formatNum2_eq n h]
  exact numStep_exact _ _ _ _ _ _ rfl (by simp)
    (digits2_props (n / 10) (n % 10) (by omega) (by omega))

theorem numStep_format4 (n : Nat) (h : n < 10000) (date r : Str) (L : Nat) :
    numStep digitsSet 4 date ⟨formatNum 4 n ++ r, L⟩ =
      .ok (date ++ formatNum 4 n, ⟨r, L⟩) := by
  rw [formatNum4_eq n h]
  exact numStep_exact _ _ _ _ _ _ rfl (by simp)
    (digits4_props (n / 1000) (n / 100 % 10) (n / 10 % 10) (n % 10)
      (by omega) (by omega) (by omega) (by omega))

theorem numStep_one (set : Str) (date : Str) (c : Char) (r : Str) (L : Nat)
    (hc : c ∈ set) (hnl : c ≠ '\n') :
    numStep set 1 date ⟨c :: r, L⟩ = .ok (date ++ [c], ⟨r, L⟩) := by
  have := numStep_exact set 1 date [c] r L rfl (by simp)
    (by intro x hx; rcases List.mem_cons.mp hx with rfl | hx
        · exact ⟨hc, hnl⟩
        · cases hx)
  simpa using this

theorem sepStep_cons (set : Str) (lit : Char) (date : Str) (c : Char) (r : Str) (L : Nat)
    (hc : c ∈ set) (hnl : c ≠ '\n') :
    sepStep set lit date ⟨c :: r, L⟩ = .ok (date ++ [lit], ⟨r, L⟩) := by
  simp only [sepStep, CharReader.Match, hc, if_pos]
  simp [CharReader.Next, bump_ne c L hnl]

theorem goParseTime_format' (t : DateTime) (h : validTime t) :
    goParseTime (formatNum 4 t.year ++ '/' :: (formatNum 2 t.month ++ '/' ::
      (formatNum 2 t.day ++ ' ' ::
        (formatNum 2 (if t.hour % 12 = 0 then 12 else t.hour % 12) ++ ':' ::
          (formatNum 2 t.minute ++ [(if 12 ≤ t.hour then 'P' else 'A'), 'M']))))) =
      some t := by
  have hx := goParseTime_format t h
  rw [formatTime] at hx
  simpa [List.append_assoc] using hx

theorem parseDate_format (t : DateTime) (h : validTime t) (r : Str) (L : Nat) :
    parseDate ⟨formatTime t ++ r, L⟩ = .ok (t, ⟨r, L⟩) := by
  obtain ⟨hy, hmo1, hmo2, hd1, hd2, hh, hmi⟩ := h
  have hd31 : t.day < 100 := by
    have := daysIn_le t.month t.year
    omega
  have hhh : (if t.hour % 12 = 0 then 12 else t.hour % 12) < 100 := by split <;> omega
  rw [formatTime]
  simp only [List.append_assoc, List.cons_append, List.nil_append]
  rw [parseDate]
  rw [numStep_format4 t.year (by omega)]
  simp only [stepBind]
  rw [sepStep_cons _ _ _ _ _ _ (by decide) (by decide)]
  simp only [stepBind]
  rw [numStep_format2 t.month (by omega)]
  simp only [stepBind]
  rw [sepStep_cons _ _ _ _ _ _ (by decide) (by decide)]
  simp only [stepBind]
  rw [numStep_format2 t.day hd31]
  simp only [stepBind]
  rw [sepStep_cons _ _ _ _ _ _ (by decide) (by decide)]
  simp only [stepBind]
  rw [numStep_format2 _ hhh]
  simp only [stepBind]
  rw [sepStep_cons _ _ _ _ _ _ (by decide) (by decide)]
  simp only [stepBind]
  rw [numStep_format2 t.minute (by omega)]
  simp only [stepBind]
  rw [numStep_one apSet _ _ _ _ (by split <;> decide) (by split <;> decide)]
  simp only [stepBind]
  rw [numStep_one mSet _ _ _ _ (by decide) (by decide)]
  simp only [stepBind]
  simp only [List.append_assoc, List.cons_append, List.nil_append, List.singleton_append]
  rw [goParseTime_format' t ⟨hy, hmo1, hmo2, hd1, hd2, hh, hmi⟩]

theorem eatL_cons_not_mem (set : Str) (c : Char) (rest : Str) (L : Nat) (h : c ∉ set) :
    eatL set (c :: rest) L = ⟨c :: rest, L⟩ := by
  simp [eatL, h]

theorem eatL_cons_mem (set : Str) (c : Char) (rest : Str) (L : Nat) (h : c ∈ set)
    (hnl : c ≠ '\n') : eatL set (c :: rest) L = eatL set rest L := by
  simp [eatL, h, bump_ne c L hnl]

theorem eatL_replicate (set : Str) (c : Char) (k : Nat) (l : Str) (L : Nat)
    (h : c ∈ set) (hnl : c ≠ '\n') :
    eatL set (List.replicate k c ++ l) L = eatL set l L := by
  induction k with
  | zero => simp
  | succ k ih => rw [List.replicate_succ, List.cons_append, eatL_cons_mem set c _ L h hnl, ih]

theorem readUntilL_stops (set : Str) (l : Str) (d : Char) (r buf : Str) (L : Nat)
    (hall : ∀ c ∈ l, c ∉ set ∧ c ≠ '\n') (hd : d ∈ set ∨ d = '\n') :
    readUntilL set (l ++ d :: r) L buf = (buf ++ l, ⟨d :: r, L⟩) := by
  induction l generalizing buf L with
  | nil => simp [readUntilL, hd]
  | cons c cs ih =>
    have hc := hall c (List.mem_cons_self c cs)
    have : ¬(c ∈ set ∨ c = '\n') := by
      intro hx
      rcases hx with hx | hx
      · exact hc.1 hx
      · exact hc.2 hx
    simp only [List.cons_append, readUntilL, if_neg this, bump_ne c L hc.2,
      List.append_eq]
    rw [ih (buf ++ [c]) L (fun x hx => hall x (List.mem_cons_of_mem c hx))]
    simp

theorem trimTrailing_id (l : Str) (h : isWS (l.getLastD 'a') = false) :
    trimTrailing l = l := by
  cases l with
  | nil => rfl
  | cons c rest =>
    rw [trimTrailing]
    cases hrev : rest.reverse with
    | nil =>
      have : rest = [] := by simpa using congrArg List.reverse hrev
      simp [this]
    | cons a as =>
      have ha : isWS a = false := by
        have h1 : (c :: rest).getLast? = some a := by
          rw [← List.head?_reverse, List.reverse_cons, hrev]
          rfl
        rw [List.getLastD_eq_getLast?, h1] at h
        exact h
      have hres : (a :: as).reverse = rest := by
        have := congrArg List.reverse hrev
        simpa using this.symm
      rw [List.dropWhile_cons, ha]
      simp [hres]

theorem trimLeadingGo_id (l : Str) (h : isWS (l.headD 'a') = false) :
    trimLeadingGo 0 l = l := by
  cases l with
  | nil => rfl
  | cons c rest =>
    rw [List.headD_cons] at h
    rw [trimLeadingGo]
    simp [h]

/-- The conditions under which a field written by the serializer is read
back verbatim: free of the grammar's delimiters, with no leading or
trailing space or tab (the parser eats or trims those). -/
def okField (l : Str) : Prop :=
  (∀ c ∈ l, c ≠ ']' ∧ c ≠ '\n') ∧ isWS (l.headD 'a') = false ∧
    isWS (l.getLastD 'a') = false

instance (l : Str) : Decidable (okField l) := by
  unfold okField
  infer_instance

theorem readUntilTrimmed_exact (l : Str) (d : Char) (r : Str) (L : Nat) (set : Str)
    (hall : ∀ c ∈ l, c ∉ set ∧ c ≠ '\n') (hd : d ∈ set ∨ d = '\n')
    (hh : isWS (l.headD 'a') = false) (hl : isWS (l.getLastD 'a') = false) :
    readUntilTrimmed ⟨l ++ d :: r, L⟩ set = .ok (l, ⟨d :: r, L⟩) := by
  rw [readUntilTrimmed, CharReader.ReadUntil]
  simp only
  rw [readUntilL_stops set l d r [] L hall hd]
  simp only [List.nil_append, CharReader.EOF, List.isEmpty_cons, Bool.false_eq_true,
    if_false]
  rw [trimTrailing_id l hl, trimLeadingGo_id l hh]

theorem C_cons (c : Char) (l : Str) (L : Nat) :
    (⟨c :: l, L⟩ : CharReader).C = c := rfl

theorem Next_cons (c : Char) (l : Str) (L : Nat) :
    (⟨c :: l, L⟩ : CharReader).Next = ⟨l, bump c L⟩ := rfl

theorem EOF_cons (c : Char) (l : Str) (L : Nat) :
    (⟨c :: l, L⟩ : CharReader).EOF = false := rfl

theorem EOF_append_cons (l : Str) (d : Char) (y : Str) (L : Nat) :
    (⟨l ++ d :: y, L⟩ : CharReader).EOF = false := by
  cases l <;> rfl

theorem bump_nl (L : Nat) : bump '\n' L = L + 1 := by simp [bump]

theorem not_mem_wsSet (c : Char) (h : isWS c = false) : c ∉ wsSet := by
  intro hm
  have hws : isWS c = true := by
    rw [wsSet] at hm
    rcases List.mem_cons.mp hm with rfl | hm
    · rfl
    rcases List.mem_cons.mp hm with rfl | hm
    · rfl
    · cases hm
  rw [hws] at h
  cases h

theorem eatL_field (l : Str) (d : Char) (y : Str) (L : Nat)
    (hh : isWS (l.headD 'a') = false) (hd : d ∉ wsSet) :
    eatL wsSet (l ++ d :: y) L = ⟨l ++ d :: y, L⟩ := by
  cases l with
  | nil => simpa using eatL_cons_not_mem wsSet d y L hd
  | cons c0 cs =>
    rw [List.headD_cons] at hh
    simpa using eatL_cons_not_mem wsSet c0 (cs ++ d :: y) L (not_mem_wsSet c0 hh)

theorem Eat_ws_space_bracket (xx : Str) (L : Nat) :
    (⟨' ' :: '[' :: xx, L⟩ : CharReader).Eat wsSet = ⟨'[' :: xx, L⟩ := by
  rw [CharReader.Eat]
  simp only
  rw [eatL_cons_mem _ _ _ _ (by decide) (by decide)]
  exact eatL_cons_not_mem _ _ _ _ (by decide)

theorem Eat_ws_space_field (l : Str) (d : Char) (y : Str) (L : Nat)
    (hh : isWS (l.headD 'a') = false) (hd : d ∉ wsSet) :
    (⟨' ' :: (l ++ d :: y), L⟩ : CharReader).Eat wsSet = ⟨l ++ d :: y, L⟩ := by
  rw [CharReader.Eat]
  simp only
  rw [eatL_cons_mem _ _ _ _ (by decide) (by decide)]
  exact eatL_field l d y L hh hd

theorem Eat_ws_padding (k : Nat) (l : Str) (d : Char) (y : Str) (L : Nat)
    (hh : isWS (l.headD 'a') = false) (hd : d ∉ wsSet) :
    (⟨List.replicate k ' ' ++ (l ++ d :: y), L⟩ : CharReader).Eat wsSet =
      ⟨l ++ d :: y, L⟩ := by
  rw [CharReader.Eat]
  simp only
  rw [eatL_replicate _ _ _ _ _ (by decide) (by decide)]
  exact eatL_field l d y L hh hd

theorem codeStep_format (k : Nat) (code : Str) (y : Str) (L : Nat)
    (hc : okField code) :
    codeStep ⟨'[' :: (List.replicate k ' ' ++ (code ++ ']' :: y)), L⟩ =
      .ok (code, ⟨y, L⟩) := by
  obtain ⟨hcmem, hchead, hclast⟩ := hc
  have hallc : ∀ c ∈ code, c ∉ closeSet ∧ c ≠ '\n' := by
    intro c hx
    refine ⟨?_, (hcmem c hx).2⟩
    intro hm
    rw [closeSet] at hm
    rcases List.mem_cons.mp hm with rfl | hm
    · exact (hcmem _ hx).1 rfl
    · cases hm
  rw [codeStep, C_cons]
  rw [if_pos rfl, Next_cons, bump_ne _ _ (by decide)]
  rw [Eat_ws_padding k code ']' y L hchead (by decide)]
  rw [readUntilTrimmed_exact code ']' y L closeSet hallc (Or.inl (by decide)) hchead hclast]
  simp only [C_cons]
  rw [if_neg (by decide : ¬(']' = '\n')), Next_cons, bump_ne _ _ (by decide)]

theorem parseEvent_format (t : DateTime) (code desc : Str) (cl : Nat) (r : Str) (L : Nat)
    (hv : validTime t) (hc : okField code) (hd : okField desc) :
    parseEvent ⟨formatLine cl ⟨t, code, desc⟩ ++ r, L⟩ =
      .ok (⟨t, code, desc⟩, ⟨r, L + 1⟩) := by
  obtain ⟨hdmem, hdhead, hdlast⟩ := hd
  have halld : ∀ c ∈ desc, c ∉ nlSet ∧ c ≠ '\n' := by
    intro c hx
    refine ⟨?_, (hdmem c hx).2⟩
    intro hm
    rw [nlSet] at hm
    rcases List.mem_cons.mp hm with rfl | hm
    · exact (hdmem _ hx).2 rfl
    · cases hm
  rw [formatLine]
  simp only [padLeft, List.append_assoc, List.cons_append, List.nil_append,
    List.singleton_append]
  simp only [parseEvent]
  rw [parseDate_format t hv]
  simp only
  rw [Eat_ws_space_bracket, EOF_cons]
  simp only [Bool.false_eq_true, if_false]
  rw [codeStep_format (cl - code.length) code (' ' :: (desc ++ '\n' :: r)) L hc]
  simp only
  rw [Eat_ws_space_field desc '\n' r L hdhead (by decide), EOF_append_cons]
  simp only [Bool.false_eq_true, if_false]
  rw [readUntilTrimmed_exact desc '\n' r L nlSet halld (Or.inr rfl) hdhead hdlast]
  simp only
  rw [Next_cons, bump_nl]

theorem formatLine_ne_nil (cl : Nat) (e : Event) : formatLine cl e ≠ [] := by
  rw [formatLine]
  simp

theorem parseLoop_line (t : DateTime) (code desc : Str) (cl : Nat) (r : Str) (L : Nat)
    (hv : validTime t) (hc : okField code) (hd : okField desc) :
    parseLoop ⟨formatLine cl ⟨t, code, desc⟩ ++ r, L⟩ =
      match parseLoop ⟨r, L + 1⟩ with
      | .ok evs => .ok ((⟨t, code, desc⟩ : Event) :: evs)
      | .error err => .error err := by
  have hy : t.year / 1000 < 10 := by
    obtain ⟨hy, _⟩ := hv
    omega
  have hmem := digitChar_mem (t.year / 1000) hy
  have hprops := digitsSet_props _ hmem
  have htail : formatLine cl (⟨t, code, desc⟩ : Event) ++ r =
      digitChar (t.year / 1000) ::
        (digitChar (t.year / 100 % 10) :: digitChar (t.year / 10 % 10) ::
          digitChar (t.year % 10) :: '/' ::
            (formatNum 2 t.month ++ '/' ::
              (formatNum 2 t.day ++ ' ' ::
                (formatNum 2 (if t.hour % 12 = 0 then 12 else t.hour % 12) ++ ':' ::
                  (formatNum 2 t.minute ++
                    (if 12 ≤ t.hour then 'P' else 'A') ::
                      'M' :: ' ' :: '[' ::
                        (padLeft ' ' cl code ++ ']' :: ' ' :: (desc ++ '\n' :: r))))))) := by
    rw [formatLine, formatTime, formatNum4_eq t.year (by obtain ⟨hy1, _⟩ := hv; omega)]
    simp
  rw [parseLoop]
  rw [dif_neg (by rw [htail]; simp)]
  have heat : (⟨formatLine cl (⟨t, code, desc⟩ : Event) ++ r, L⟩ : CharReader).Eat wsSet =
      ⟨formatLine cl (⟨t, code, desc⟩ : Event) ++ r, L⟩ := by
    rw [CharReader.Eat]
    simp only [htail]
    exact eatL_cons_not_mem _ _ _ _ hprops.1
  rw [heat]
  have hC : (⟨formatLine cl (⟨t, code, desc⟩ : Event) ++ r, L⟩ : CharReader).C =
      digitChar (t.year / 1000) := by
    rw [htail]
    exact C_cons _ _ _
  rw [hC]
  rw [dif_neg hprops.2.1, dif_neg hprops.2.2.1]
  rw [parseEvent_format t code desc cl r L hv hc hd]

theorem parseLoop_format (cl : Nat) (evs : TimeLog) (L : Nat)
    (h : ∀ e ∈ evs, validTime e.At ∧ okField e.Code ∧ okField e.Desc) :
    parseLoop ⟨(evs.map (formatLine cl)).flatten, L⟩ = .ok evs := by
  induction evs generalizing L with
  | nil =>
    rw [List.map_nil, List.flatten_nil, parseLoop, dif_pos rfl]
  | cons e es ih =>
    obtain ⟨hv, hc, hd⟩ := h e (List.mem_cons_self e es)
    obtain ⟨t, code, desc⟩ := e
    rw [List.map_cons, List.flatten_cons]
    rw [parseLoop_line t code desc cl _ L hv hc hd]
    rw [ih (L + 1) (fun x hx => h x (List.mem_cons_of_mem _ hx))]

/-- Round trip of the serializer and parser, for logs whose events have
calendar-valid timestamps and delimiter-free, edge-trimmed codes and
descriptions. -/
theorem FormatLog_roundTrip (log : TimeLog)
    (h : ∀ e ∈ log, validTime e.At ∧ okField e.Code ∧ okField e.Desc) :
    parseTimeLog (FormatLog log) = .ok log := by
  rw [parseTimeLog, FormatLog]
  exact parseLoop_format (CodeLen log) log 1 h

theorem bump_L_mono (c : Char) (L : Nat) : L ≤ bump c L := by
  rw [bump]
  split <;> omega

theorem eatL_L_mono (set : Str) (l : Str) (L : Nat) : L ≤ (eatL set l L).L := by
  induction l generalizing L with
  | nil => simp [eatL]
  | cons c rest ih =>
    rw [eatL]
    split
    · exact le_trans (bump_L_mono c L) (ih _)
    · exact le_refl _

theorem eatUntilL_L_mono (set : Str) (l : Str) (L : Nat) : L ≤ (eatUntilL set l L).L := by
  induction l generalizing L with
  | nil => simp [eatUntilL]
  | cons c rest ih =>
    rw [eatUntilL]
    split
    · exact le_refl _
    · exact le_trans (bump_L_mono c L) (ih _)

theorem readUntilL_L_mono (set : Str) (l : Str) (L : Nat) (buf : Str) :
    L ≤ (readUntilL set l L buf).2.L := by
  induction l generalizing L buf with
  | nil => simp [readUntilL]
  | cons c rest ih =>
    rw [readUntilL]
    split
    · exact le_refl _
    · exact le_trans (bump_L_mono c L) (ih _ _)

theorem rmlL_L_mono (set : Str) (n : Nat) (l : Str) (L : Nat) (buf : Str) :
    L ≤ (rmlL set n l L buf).2.2.L := by
  induction n generalizing l L buf with
  | zero => simp [rmlL]
  | succ n ih =>
    cases l with
    | nil => simp [rmlL]
    | cons c rest =>
      rw [rmlL]
      split
      · exact le_trans (bump_L_mono c L) (ih _ _ _)
      · exact le_refl _

theorem Next_L_mono (cr : CharReader) : cr.L ≤ cr.Next.L := by
  rw [CharReader.Next]
  split
  · exact le_refl _
  · exact bump_L_mono _ _

theorem Eat_L_mono (cr : CharReader) (set : Str) : cr.L ≤ (cr.Eat set).L :=
  eatL_L_mono set cr.input cr.L

theorem EatUntil_L_mono (cr : CharReader) (set : Str) : cr.L ≤ (cr.EatUntil set).L :=
  eatUntilL_L_mono set cr.input cr.L

theorem numStep_L (set : Str) (n : Nat) (date : Str) (cr : CharReader) :
    (∀ d' cr', numStep set n date cr = .ok (d', cr') → cr.L ≤ cr'.L) ∧
      (∀ e, numStep set n date cr = .error e →
        ∀ l, e.lineTag = some l → cr.L ≤ l) := by
  constructor
  · intro d' cr' h
    simp only [numStep, CharReader.ReadMatchLimit] at h
    split at h
    · rw [Except.ok.injEq] at h
      have h2 : (rmlL set n cr.input cr.L date).2.2 = cr' := congrArg Prod.snd h
      rw [← h2]
      exact rmlL_L_mono set n cr.input cr.L date
    · cases h
  · intro e h l hl
    simp only [numStep, CharReader.ReadMatchLimit] at h
    split at h
    · cases h
    · rw [Except.error.injEq] at h
      subst h
      simp only [ParseErr.lineTag, Option.some.injEq] at hl
      subst hl
      exact rmlL_L_mono set n cr.input cr.L date

theorem sepStep_L (set : Str) (lit : Char) (date : Str) (cr : CharReader) :
    (∀ d' cr', sepStep set lit date cr = .ok (d', cr') → cr.L ≤ cr'.L) ∧
      (∀ e, sepStep set lit date cr = .error e →
        ∀ l, e.lineTag = some l → cr.L ≤ l) := by
  constructor
  · intro d' cr' h
    simp only [sepStep] at h
    split at h
    · rw [Except.ok.injEq] at h
      have h2 : cr.Next = cr' := congrArg Prod.snd h
      rw [← h2]
      exact Next_L_mono cr
    · cases h
  · intro e h l hl
    simp only [sepStep] at h
    split at h
    · cases h
    · rw [Except.error.injEq] at h
      subst h
      simp only [ParseErr.lineTag, Option.some.injEq] at hl
      omega

/-- Both outcomes of a parsing step only move the line number forward:
a success hands on a reader at line at least `L0`, and an error that
carries a line number carries one at least `L0`. -/
def Lmono {α : Type} (getL : α → Nat) (x : Except ParseErr α) (L0 : Nat) : Prop :=
  (∀ a, x = .ok a → L0 ≤ getL a) ∧
    (∀ e, x = .error e → ∀ l, e.lineTag = some l → L0 ≤ l)

theorem stepBind_error {α : Type} (e : ParseErr)
    (f : Str → CharReader → Except ParseErr α) :
    stepBind (.error e) f = .error e := rfl

theorem stepBind_ok_pair {α : Type} (d : Str) (cr : CharReader)
    (f : Str → CharReader → Except ParseErr α) :
    stepBind (.ok (d, cr)) f = f d cr := rfl

theorem stepBind_Lmono {α : Type} (getL : α → Nat)
    (x : Except ParseErr (Str × CharReader))
    (f : Str → CharReader → Except ParseErr α) (L0 : Nat)
    (hx : Lmono (fun p => p.2.L) x L0)
    (hf : ∀ d cr', x = .ok (d, cr') → Lmono getL (f d cr') cr'.L) :
    Lmono getL (stepBind x f) L0 := by
  constructor
  · intro a ha
    cases hx0 : x with
    | error e => rw [hx0, stepBind_error] at ha; cases ha
    | ok p =>
      obtain ⟨d, cr'⟩ := p
      have hres := (hf d cr' hx0).1 a (by rw [hx0, stepBind_ok_pair] at ha; exact ha)
      exact le_trans (hx.1 _ hx0) hres
  · intro e he l hl
    cases hx0 : x with
    | error e0 =>
      rw [hx0, stepBind_error] at he
      rw [Except.error.injEq] at he
      subst he
      exact hx.2 _ hx0 l hl
    | ok p =>
      obtain ⟨d, cr'⟩ := p
      have hres := (hf d cr' hx0).2 e (by rw [hx0, stepBind_ok_pair] at he; exact he) l hl
      exact le_trans (hx.1 _ hx0) hres

theorem numStep_Lmono (set : Str) (n : Nat) (date : Str) (cr : CharReader) :
    Lmono (fun p : Str × CharReader => p.2.L) (numStep set n date cr) cr.L :=
  ⟨fun a ha => (numStep_L set n date cr).1 a.1 a.2 (by rw [ha]),
   (numStep_L set n date cr).2⟩

theorem sepStep_Lmono (set : Str) (lit : Char) (date : Str) (cr : CharReader) :
    Lmono (fun p : Str × CharReader => p.2.L) (sepStep set lit date cr) cr.L :=
  ⟨fun a ha => (sepStep_L set lit date cr).1 a.1 a.2 (by rw [ha]),
   (sepStep_L set lit date cr).2⟩

theorem parseDate_Lmono (cr : CharReader) :
    Lmono (fun p : DateTime × CharReader => p.2.L) (parseDate cr) cr.L := by
  rw [parseDate]
  refine stepBind_Lmono _ _ _ _ (numStep_Lmono _ _ _ _) ?_
  intro d1 c1 _
  refine stepBind_Lmono _ _ _ _ (sepStep_Lmono _ _ _ _) ?_
  intro d2 c2 _
  refine stepBind_Lmono _ _ _ _ (numStep_Lmono _ _ _ _) ?_
  intro d3 c3 _
  refine stepBind_Lmono _ _ _ _ (sepStep_Lmono _ _ _ _) ?_
  intro d4 c4 _
  refine stepBind_Lmono _ _ _ _ (numStep_Lmono _ _ _ _) ?_
  intro d5 c5 _
  refine stepBind_Lmono _ _ _ _ (sepStep_Lmono _ _ _ _) ?_
  intro d6 c6 _
  refine stepBind_Lmono _ _ _ _ (numStep_Lmono _ _ _ _) ?_
  intro d7 c7 _
  refine stepBind_Lmono _ _ _ _ (sepStep_Lmono _ _ _ _) ?_
  intro d8 c8 _
  refine stepBind_Lmono _ _ _ _ (numStep_Lmono _ _ _ _) ?_
  intro d9 c9 _
  refine stepBind_Lmono _ _ _ _ (numStep_Lmono _ _ _ _) ?_
  intro d10 c10 _
  refine stepBind_Lmono _ _ _ _ (numStep_Lmono _ _ _ _) ?_
  intro d11 c11 _
  constructor
  · intro a ha
    split at ha
    · rw [Except.ok.injEq] at ha
      subst ha
      exact le_refl _
    · cases ha
  · intro e he l hl
    split at he
    · cases he
    · rw [Except.error.injEq] at he
      subst he
      cases hl

theorem readUntilTrimmed_Lmono (cr : CharReader) (chars : Str) :
    Lmono (fun p : Str × CharReader => p.2.L) (readUntilTrimmed cr chars) cr.L := by
  constructor
  · intro a ha
    obtain ⟨a1, a2⟩ := a
    simp only [readUntilTrimmed, CharReader.ReadUntil] at ha
    split at ha
    · cases ha
    · rw [Except.ok.injEq, Prod.mk.injEq] at ha
      simp only
      rw [← ha.2]
      exact readUntilL_L_mono chars cr.input cr.L []
  · intro e he l hl
    simp only [readUntilTrimmed, CharReader.ReadUntil] at he
    split at he
    · rw [Except.error.injEq] at he
      subst he
      simp only [ParseErr.lineTag, Option.some.injEq] at hl
      subst hl
      exact readUntilL_L_mono chars cr.input cr.L []
    · cases he

theorem codeStep_Lmono (cr : CharReader) :
    Lmono (fun p : Str × CharReader => p.2.L) (codeStep cr) cr.L := by
  rw [codeStep]
  split
  · have hbase := readUntilTrimmed_Lmono ((cr.Next).Eat wsSet) closeSet
    have hL0 : cr.L ≤ ((cr.Next).Eat wsSet).L :=
      le_trans (Next_L_mono cr) (Eat_L_mono cr.Next wsSet)
    constructor
    · intro a ha
      obtain ⟨a1, a2⟩ := a
      split at ha
      · cases ha
      · next code cr3 hru =>
        split at ha
        · cases ha
        · rw [Except.ok.injEq, Prod.mk.injEq] at ha
          have := hbase.1 (code, cr3) hru
          have h3 := Next_L_mono cr3
          simp only at this ⊢
          rw [← ha.2]
          omega
    · intro e he l hl
      split at he
      · next e0 hru =>
        rw [Except.error.injEq] at he
        subst he
        have := hbase.2 _ hru l hl
        omega
      · next code cr3 hru =>
        split at he
        · rw [Except.error.injEq] at he
          subst he
          simp only [ParseErr.lineTag, Option.some.injEq] at hl
          subst hl
          have := hbase.1 (code, cr3) hru
          simp only at this
          omega
        · cases he
  · exact ⟨fun a ha => by rw [Except.ok.injEq] at ha; subst ha; exact le_refl _,
      fun e he => by cases he⟩

theorem parseEvent_Lmono (cr : CharReader) :
    Lmono (fun p : Event × CharReader => p.2.L) (parseEvent cr) cr.L := by
  have hpd := parseDate_Lmono cr
  constructor
  · intro a ha
    obtain ⟨ev, cr'⟩ := a
    simp only [parseEvent] at ha
    split at ha
    · cases ha
    · next date cr1 hd =>
      have hL1 : cr.L ≤ cr1.L := by
        have := hpd.1 (date, cr1) hd
        simpa using this
      split at ha
      · cases ha
      · split at ha
        · cases ha
        · next code cr4 hcb =>
          have hL4 : cr1.L ≤ cr4.L := by
            have h2 := Eat_L_mono cr1 wsSet
            have h3 := (codeStep_Lmono (cr1.Eat wsSet)).1 (code, cr4) hcb
            simp only at h3
            omega
          split at ha
          · cases ha
          · split at ha
            · cases ha
            · next desc cr6 hrd =>
              have hL6 : cr4.L ≤ cr6.L := by
                have h2 := Eat_L_mono cr4 wsSet
                have h3 := (readUntilTrimmed_Lmono (cr4.Eat wsSet) nlSet).1 (desc, cr6) hrd
                simp only at h3
                omega
              rw [Except.ok.injEq, Prod.mk.injEq] at ha
              have h7 := Next_L_mono cr6
              simp only
              rw [← ha.2]
              omega
  · intro e he l hl
    simp only [parseEvent] at he
    split at he
    · next e0 hd0 =>
      rw [Except.error.injEq] at he
      subst he
      exact hpd.2 _ hd0 l hl
    · next date cr1 hd =>
      have hL1 : cr.L ≤ cr1.L := by
        have := hpd.1 (date, cr1) hd
        simpa using this
      have hL2 : cr1.L ≤ (cr1.Eat wsSet).L := Eat_L_mono cr1 wsSet
      split at he
      · rw [Except.error.injEq] at he
        subst he
        simp only [ParseErr.lineTag, Option.some.injEq] at hl
        omega
      · split at he
        · next e0 hcb0 =>
          rw [Except.error.injEq] at he
          subst he
          have := (codeStep_Lmono (cr1.Eat wsSet)).2 _ hcb0 l hl
          omega
        · next code cr4 hcb =>
          have hL4 : (cr1.Eat wsSet).L ≤ cr4.L := by
            have h3 := (codeStep_Lmono (cr1.Eat wsSet)).1 (code, cr4) hcb
            simpa using h3
          have hL5 : cr4.L ≤ (cr4.Eat wsSet).L := Eat_L_mono cr4 wsSet
          split at he
          · rw [Except.error.injEq] at he
            subst he
            simp only [ParseErr.lineTag, Option.some.injEq] at hl
            omega
          · split at he
            · next e0 hrd0 =>
              rw [Except.error.injEq] at he
              subst he
              have := (readUntilTrimmed_Lmono (cr4.Eat wsSet) nlSet).2 _ hrd0 l hl
              omega
            · cases he

theorem parseLoopF_err_line (fuel : Nat) (cr : CharReader) (e : ParseErr)
    (h : parseLoopF fuel cr = .error e) (l : Nat) (hl : e.lineTag = some l) :
    cr.L ≤ l := by
  induction fuel generalizing cr e with
  | zero =>
    rw [parseLoopF] at h
    rw [Except.error.injEq] at h
    subst h
    simp only [ParseErr.lineTag, Option.some.injEq] at hl
    omega
  | succ f ih =>
    rw [parseLoopF] at h
    split at h
    · cases h
    · split at h
      · have hrec := ih _ _ h hl
        have h1 := Eat_L_mono cr wsSet
        have h2 := Next_L_mono (cr.Eat wsSet)
        omega
      · split at h
        · have hrec := ih _ _ h hl
          have h1 := Eat_L_mono cr wsSet
          have h2 := EatUntil_L_mono (cr.Eat wsSet) nlSet
          have h3 := Next_L_mono ((cr.Eat wsSet).EatUntil nlSet)
          omega
        · split at h
          · next e0 hev =>
            rw [Except.error.injEq] at h
            subst h
            have h1 := Eat_L_mono cr wsSet
            have h2 := (parseEvent_Lmono (cr.Eat wsSet)).2 _ hev l hl
            omega
          · next ev cr2 hev =>
            split at h
            · cases h
            · next e2 hrec0 =>
              rw [Except.error.injEq] at h
              subst h
              have h1 := Eat_L_mono cr wsSet
              have h2 := (parseEvent_Lmono (cr.Eat wsSet)).1 (ev, cr2) hev
              simp only at h2
              have h3 := ih _ _ hrec0 hl
              omega

/-- Every error of the parser that carries a line number carries a 1-based
one: the reader starts on line 1 and line numbers only move forward. -/
theorem parseTimeLog_err_line (s : Str) (e : ParseErr) (l : Nat)
    (h : parseTimeLog s = .error e) (hl : e.lineTag = some l) : 1 ≤ l := by
  rw [parseTimeLog_eval] at h
  exact parseLoopF_err_line _ _ _ h l hl

end Timelog

namespace Calc

/-!
The calculation module (src/timelog/calc.go and the report-building loop of
main.go).  Here a `time.Time` is only ever compared (`Before`, `After`),
subtracted (`Sub`, giving a `time.Duration` in nanoseconds) or sent to the
calendar functions `ISOWeek` and `Weekday`, so it is modelled as an abstract
instant: an integer.  Durations are integers (nanoseconds).  `ISOWeek` and
`Weekday` are abstracted as parameters; `Weekday` lands in `Fin 7` because
Go's `time.Weekday` ranges over Sunday 0 to Saturday 6.
-/

/-- The `Event` record of timelog.go, with the timestamp as an instant. -/
structure Event where
  At : Int
  Code : List Char
  Desc : List Char
deriving DecidableEq, Repr

/-- `TimeLog` of timelog.go. -/
abbrev TimeLog := List Event

/-- `After` of calc.go: keep the events with `item.At.After(t)`, in order.
(The Go slice shares the event pointers with the receiver; values are
unchanged, which is what this model captures.) -/
def After (log : TimeLog) (t : Int) : TimeLog :=
  log.filter (fun e => t < e.At)

/-- `Between` of calc.go: swap the bounds so the earlier one is first,
then keep the events strictly inside them. -/
def Between (log : TimeLog) (t1 t2 : Int) : TimeLog :=
  let p := if t2 < t1 then (t2, t1) else (t1, t2)
  log.filter (fun e => p.1 < e.At ∧ e.At < p.2)

/-- Ascending timestamp order: the non-strict closure of the comparison
`log[i].At.Before(log[j].At)` that `Sort` of calc.go passes to the sort. -/
def byAt (a b : Event) : Prop := a.At ≤ b.At

instance : DecidableRel byAt := fun a b => inferInstanceAs (Decidable (a.At ≤ b.At))

instance : IsTotal Event byAt := ⟨fun a b => le_total a.At b.At⟩

instance : IsTrans Event byAt := ⟨fun _ _ _ hab hbc => le_trans hab hbc⟩

/-- Modelled from the spec: `Sort` of calc.go delegates to Go's
`sort.Slice` (standard library, not part of this repository's sources)
with the comparison `log[i].At.Before(log[j].At)`.  Spec section 4.3
specifies the result: a stable ascending reorder by timestamp, modelled
here as an insertion sort, which is stable.  (Go's `sort.Slice` contract
itself does not promise stability.) -/
def SortLog (log : TimeLog) : TimeLog :=
  List.insertionSort byAt log

/-- The `Period` record of calc.go. -/
structure Period where
  Begin : Int
  End : Int
  Desc : List Char
  Code : List Char
deriving DecidableEq, Repr

/-- `Period.Length`: `End.Sub(Begin)`. -/
def Period.Length (p : Period) : Int := p.End - p.Begin

/-- The pairwise walk of `Periods`: one period per adjacent pair of the
(sorted) event sequence, labelled by the earlier event. -/
def periodsOf : List Event → List Period
  | a :: b :: rest => ⟨a.At, b.At, a.Desc, a.Code⟩ :: periodsOf (b :: rest)
  | _ => []

/-- `Periods` of calc.go: sort, then fold adjacent pairs.  (The receiver
is sorted in place in Go; the model returns the periods of the sorted
sequence.) -/
def Periods (log : TimeLog) : List Period := periodsOf (SortLog log)

/-- `FilterOutPeriods` of calc.go: drop the periods matching `code`. -/
def FilterOutPeriods (p : List Period) (code : List Char) : List Period :=
  p.filter (fun item => item.Code ≠ code)

/-- `FilterInPeriods` of calc.go: keep the periods matching `code`. -/
def FilterInPeriods (p : List Period) (code : List Char) : List Period :=
  p.filter (fun item => item.Code = code)

mutual
/-- `TimecodeTreeNode` of calc.go: `Self` is the full colon-joined code of
the node, `Kids` the children keyed by path segment.  The Go `Kids` field
is a map with unspecified iteration order; it is modelled as an
association list in insertion order, and every theorem stated about the
filters below is order-insensitive (multiset level), so the choice of
order is immaterial. -/
inductive TimecodeTreeNode where
  | node (Self : List Char) (Kids : KidList)

/-- The association list of children of a `TimecodeTreeNode`. -/
inductive KidList where
  | nil
  | cons (key : List Char) (child : TimecodeTreeNode) (rest : KidList)
end

/-- Look a path segment up among the children (`kid, ok := n.Kids[part]`). -/
def findKid : KidList → List Char → Option TimecodeTreeNode
  | .nil, _ => none
  | .cons k c rest, part => if k = part then some c else findKid rest part

/-- Store a child under a segment (`n.Kids[part] = kid`): replace the
existing entry or append a new one. -/
def storeKid : KidList → List Char → TimecodeTreeNode → KidList
  | .nil, part, c => .cons part c .nil
  | .cons k c0 rest, part, c =>
    if k = part then .cons k c rest else .cons k c0 (storeKid rest part c)

/-- `strings.Split(code, ":")`: colon-separated segments; the empty string
splits to one empty segment. -/
def splitColon : List Char → List (List Char)
  | [] => [[]]
  | c :: rest =>
    if c = ':' then [] :: splitColon rest
    else
      match splitColon rest with
      | s :: ss => (c :: s) :: ss
      | [] => [[c]]

/-- The per-code insertion walk of `GenerateTimecodeTree`: follow the
segments, accumulating `sofar` (a `:` is added before every segment but
the first), creating missing children with `Self = sofar`. -/
def insertParts (sofar : List Char) (first : Bool) :
    List (List Char) → TimecodeTreeNode → TimecodeTreeNode
  | [], n => n
  | part :: rest, .node self kids =>
    let sofar' := (if first then sofar else sofar ++ [':']) ++ part
    let child :=
      match findKid kids part with
      | some c => c
      | none => .node sofar' .nil
    .node self (storeKid kids part (insertParts sofar' false rest child))

/-- `GenerateTimecodeTree` of calc.go: insert every code's segment path
into a tree rooted at the sentinel `Self = "-"`. -/
def GenerateTimecodeTree (codes : List (List Char)) : TimecodeTreeNode :=
  codes.foldl (fun t code => insertParts [] true (splitColon code) t) (.node ['-'] .nil)

/-- The node lookup shared by both subtree filters: walk the tree by the
segments of the code; `none` when a segment is absent. -/
def lookupCode : TimecodeTreeNode → List (List Char) → Option TimecodeTreeNode
  | n, [] => some n
  | .node _ kids, part :: rest =>
    match findKid kids part with
    | none => none
    | some c => lookupCode c rest

mutual
/-- The recursive walk of `FilterOutPeriodsChildren` (lower-case
`filterOutPeriodsChildren` of calc.go): filter the kids' subtrees first,
then remove the node's own code. -/
def filterOutNode : List Period → TimecodeTreeNode → List Period
  | p, .node self kids => FilterOutPeriods (filterOutKids p kids) self

/-- The `for _, kid := range n.Kids` loop of the out-filter, threading the
shrinking period list through the children. -/
def filterOutKids : List Period → KidList → List Period
  | p, .nil => p
  | p, .cons _ c rest => filterOutKids (filterOutNode p c) rest
end

mutual
/-- The recursive walk of `FilterInPeriodsChildren` (lower-case
`filterInPeriodsChildren` of calc.go): concatenate the kids' matches,
then the node's own matches. -/
def filterInNode : List Period → TimecodeTreeNode → List Period
  | p, .node self kids => filterInKids p kids ++ FilterInPeriods p self

/-- The `for _, kid := range n.Kids` loop of the in-filter: each child is
filtered against the same original period list. -/
def filterInKids : List Period → KidList → List Period
  | _, .nil => []
  | p, .cons _ c rest => filterInNode p c ++ filterInKids p rest
end

/-- `FilterOutPeriodsChildren` of calc.go: remove the periods whose code
is the given code or any of its descendants; an unknown code gives `nil`. -/
def FilterOutPeriodsChildren (p : List Period) (code : List Char)
    (codetree : TimecodeTreeNode) : List Period :=
  match lookupCode codetree (splitColon code) with
  | none => []
  | some n => filterOutNode p n

/-- `FilterInPeriodsChildren` of calc.go: keep exactly the periods whose
code is the given code or any of its descendants; an unknown code gives
`nil`. -/
def FilterInPeriodsChildren (p : List Period) (code : List Char)
    (codetree : TimecodeTreeNode) : List Period :=
  match lookupCode codetree (splitColon code) with
  | none => []
  | some n => filterInNode p n

mutual
/-- All `Self` values in a subtree: the node's own, then its descendants'. -/
def subtreeSelves : TimecodeTreeNode → List (List Char)
  | .node self kids => self :: kidsSelves kids

/-- The `Self` values contributed by a child list. -/
def kidsSelves : KidList → List (List Char)
  | .nil => []
  | .cons _ c rest => subtreeSelves c ++ kidsSelves rest
end

deriving instance DecidableEq for TimecodeTreeNode

/-- The `ReportWeek` record of main.go: ISO year and week number, the
periods of the week, per-code day totals (`map[string][8]time.Duration`,
modelled as an association list; index 0 to 6 are Monday to Sunday, index
7 the week total) and the all-code day totals `Daily`. -/
structure ReportWeek where
  Year : Int
  Number : Int
  Periods : List Period
  Totals : List (List Char × List Int)
  Daily : List Int
deriving DecidableEq, Repr

/-- The weekday rotation of main.go: `d := p.Begin.Weekday() - 1;
if d < 0 then d = 6`, turning Go's Sunday-0 numbering into Monday-0. -/
def dayIndex (w : Fin 7) : Nat := if w.val = 0 then 6 else w.val - 1

/-- Reading `cw.Totals[p.Code]`: a missing key yields the zero array. -/
def lookupTotals (totals : List (List Char × List Int)) (code : List Char) : List Int :=
  match totals.find? (fun kv => kv.1 == code) with
  | none => List.replicate 8 0
  | some kv => kv.2

/-- Writing `cw.Totals[p.Code] = v`. -/
def setTotals : List (List Char × List Int) → List Char → List Int →
    List (List Char × List Int)
  | [], code, v => [(code, v)]
  | (k, old) :: rest, code, v =>
    if k = code then (k, v) :: rest else (k, old) :: setTotals rest code v

/-- The per-period body of the report loop of main.go: append the period
to the open bucket and add its duration into `Totals[code][d]`,
`Totals[code][7]`, `Daily[d]` and `Daily[7]`. -/
def addPeriod (weekday : Int → Fin 7) (w : ReportWeek) (p : Period) : ReportWeek :=
  let d := dayIndex (weekday p.Begin)
  let len := p.Length
  let v0 := lookupTotals w.Totals p.Code
  let v1 := v0.set d (v0.getD d 0 + len)
  let v2 := v1.set 7 (v1.getD 7 0 + len)
  let d1 := w.Daily.set d (w.Daily.getD d 0 + len)
  let d2 := d1.set 7 (d1.getD 7 0 + len)
  ⟨w.Year, w.Number, w.Periods ++ [p], setTotals w.Totals p.Code v2, d2⟩

/-- A freshly opened bucket
(`&ReportWeek (Year cy, Number cwn, Totals empty)`; `Daily` is Go's zero
array). -/
def freshWeek (cy cwn : Int) : ReportWeek :=
  ⟨cy, cwn, [], [], List.replicate 8 0⟩

/-- The change-detection loop of main.go over the period list: open a new
bucket whenever the ISO (year, week) of `p.Begin` differs from the open
bucket's (or none is open), and accumulate each period into the open
bucket.  Buckets are emitted in the order opened. -/
def buildWeeks (isoWeek : Int → Int × Int) (weekday : Int → Fin 7) :
    Option ReportWeek → List Period → List ReportWeek
  | cw, [] =>
    (match cw with
     | none => []
     | some w => [w])
  | cw, p :: rest =>
    let cy := (isoWeek p.Begin).1
    let cwn := (isoWeek p.Begin).2
    match cw with
    | some w =>
      if cwn ≠ w.Number ∨ cy ≠ w.Year then
        w :: buildWeeks isoWeek weekday (some (addPeriod weekday (freshWeek cy cwn) p)) rest
      else
        buildWeeks isoWeek weekday (some (addPeriod weekday w p)) rest
    | none => buildWeeks isoWeek weekday (some (addPeriod weekday (freshWeek cy cwn) p)) rest

/-- The full week aggregation of the report command of main.go. -/
def GenerateWeeks (isoWeek : Int → Int × Int) (weekday : Int → Fin 7)
    (periods : List Period) : List ReportWeek :=
  buildWeeks isoWeek weekday none periods

/-- The total duration of a period list (`end − begin` summed). -/
def sumDurs (ps : List Period) : Int := (ps.map Period.Length).sum

/-- The grand total across buckets as the claim measures it: each
bucket's `Daily[7]`. -/
def sumWeeks (ws : List ReportWeek) : Int := (ws.map (fun w => w.Daily.getD 7 0)).sum

theorem sortLog_sorted (log : TimeLog) : List.Sorted byAt (SortLog log) :=
  List.sorted_insertionSort byAt log

theorem sortLog_perm (log : TimeLog) : (SortLog log).Perm log :=
  List.perm_insertionSort byAt log

theorem sortLog_idem (log : TimeLog) : SortLog (SortLog log) = SortLog log :=
  (sortLog_sorted log).insertionSort_eq

theorem filter_orderedInsert (t : Int) (a : Event) (l : List Event) :
    (List.orderedInsert byAt a l).filter (fun e => e.At = t) =
      if a.At = t then a :: l.filter (fun e => e.At = t)
      else l.filter (fun e => e.At = t) := by
  induction l with
  | nil =>
    rw [List.orderedInsert]
    split <;> simp_all [List.filter]
  | cons b bs ih =>
    rw [List.orderedInsert]
    by_cases hab : byAt a b
    · rw [if_pos hab]
      by_cases hat : a.At = t
      · simp [List.filter, hat]
      · simp [List.filter, hat]
    · rw [if_neg hab]
      have hbt : ¬ b.At = t ∨ ¬ a.At = t := by
        by_cases hat : a.At = t
        · left
          rw [byAt] at hab
          intro hb
          exact hab (by omega)
        · right
          exact hat
      by_cases hat : a.At = t
      · have hb : ¬ b.At = t := by tauto
        rw [if_pos hat]
        simp only [List.filter_cons, decide_eq_true_eq, if_neg hb, ih, if_pos hat]
      · rw [if_neg hat]
        simp only [List.filter_cons, ih, if_neg hat]

theorem sortLog_stable (log : TimeLog) (t : Int) :
    (SortLog log).filter (fun e => e.At = t) = log.filter (fun e => e.At = t) := by
  induction log with
  | nil => rfl
  | cons a l ih =>
    rw [SortLog, List.insertionSort]
    rw [show List.insertionSort byAt l = SortLog l from rfl]
    rw [filter_orderedInsert t a (SortLog l)]
    by_cases hat : a.At = t
    · rw [if_pos hat, ih]
      simp [List.filter_cons, hat]
    · rw [if_neg hat, ih]
      simp [List.filter_cons, hat]

theorem periodsOf_eq_zipWith (l : List Event) :
    periodsOf l =
      List.zipWith (fun a b => (⟨a.At, b.At, a.Desc, a.Code⟩ : Period)) l l.tail := by
  induction l with
  | nil => rfl
  | cons a l ih =>
    cases l with
    | nil => rfl
    | cons b rest =>
      rw [periodsOf, ih]
      rfl

theorem sortLog_length (log : TimeLog) : (SortLog log).length = log.length :=
  (sortLog_perm log).length_eq

theorem periods_length (log : TimeLog) : (Periods log).length = log.length - 1 := by
  rw [Periods, periodsOf_eq_zipWith, List.length_zipWith, List.length_tail,
    sortLog_length]
  omega

theorem periods_getD (log : TimeLog) (i : Nat) (hi : i < (Periods log).length) :
    (Periods log).getD i ⟨0, 0, [], []⟩ =
      ⟨((SortLog log).getD i ⟨0, [], []⟩).At, ((SortLog log).getD (i + 1) ⟨0, [], []⟩).At,
        ((SortLog log).getD i ⟨0, [], []⟩).Desc,
        ((SortLog log).getD i ⟨0, [], []⟩).Code⟩ := by
  have hlen : (Periods log).length = (SortLog log).length - 1 := by
    rw [periods_length, sortLog_length]
  have hi1 : i < (SortLog log).length := by omega
  have hi2 : i + 1 < (SortLog log).length := by omega
  have hit : i < (SortLog log).tail.length := by
    rw [List.length_tail]
    omega
  have hzip : Periods log =
      List.zipWith (fun a b => (⟨a.At, b.At, a.Desc, a.Code⟩ : Period))
        (SortLog log) (SortLog log).tail := by
    rw [Periods, periodsOf_eq_zipWith]
  have hiz : i < (List.zipWith (fun a b => (⟨a.At, b.At, a.Desc, a.Code⟩ : Period))
      (SortLog log) (SortLog log).tail).length := by
    rw [← hzip]
    exact hi
  rw [hzip, List.getD_eq_getElem _ _ hiz, List.getD_eq_getElem _ _ hi1,
    List.getD_eq_getElem _ _ hi2, List.getElem_zipWith, List.getElem_tail]

/-- The well-formedness of one `[8]time.Duration` row as the claim states
it: eight entries with the eighth holding the sum of the first seven. -/
def rowOK (v : List Int) : Prop := v.length = 8 ∧ v.getD 7 0 = (v.take 7).sum

/-- The bucket invariant: `Daily` and every `Totals` row are well-formed. -/
def weekOK (w : ReportWeek) : Prop := rowOK w.Daily ∧ ∀ kv ∈ w.Totals, rowOK kv.2

theorem getD_set_ne (l : List Int) (i j : Nat) (x : Int) (hij : i ≠ j) :
    (l.set i x).getD j 0 = l.getD j 0 := by
  rcases Nat.lt_or_ge j l.length with h | h
  · rw [List.getD_eq_getElem _ _ (by simpa using h), List.getD_eq_getElem _ _ h]
    exact List.getElem_set_ne hij _
  · rw [List.getD_eq_default _ _ (by simpa using h), List.getD_eq_default _ _ h]

theorem getD_set_self (l : List Int) (i : Nat) (x : Int) (hi : i < l.length) :
    (l.set i x).getD i 0 = x := by
  rw [List.getD_eq_getElem _ _ (by simpa using hi)]
  exact List.getElem_set_self _

theorem sum_set_int (l : List Int) (j : Nat) (x : Int) (h : j < l.length) :
    (l.set j x).sum = l.sum - l.getD j 0 + x := by
  induction l generalizing j with
  | nil => simp at h
  | cons c rest ih =>
    cases j with
    | zero => simp [List.set, List.getD_eq_getElem _ _ h]; omega
    | succ j =>
      have hj : j < rest.length := by simpa using h
      simp only [List.set, List.sum_cons, ih j hj]
      rw [List.getD_eq_getElem _ _ h, List.getD_eq_getElem _ _ hj]
      have : (c :: rest)[j + 1] = rest[j] := by simp
      rw [this]
      omega

theorem getD_take7 (l : List Int) (d : Nat) (hd : d < 7) (hlen : 7 ≤ l.length) :
    (l.take 7).getD d 0 = l.getD d 0 := by
  have h1 : d < (l.take 7).length := by
    rw [List.length_take]
    omega
  rw [List.getD_eq_getElem _ _ h1, List.getD_eq_getElem _ _ (by omega),
    List.getElem_take]

theorem row_update (v : List Int) (d : Nat) (len : Int) (hv : rowOK v) (hd : d < 7) :
    rowOK ((v.set d (v.getD d 0 + len)).set 7
        ((v.set d (v.getD d 0 + len)).getD 7 0 + len)) ∧
      ((v.set d (v.getD d 0 + len)).set 7
        ((v.set d (v.getD d 0 + len)).getD 7 0 + len)).getD 7 0 = v.getD 7 0 + len := by
  obtain ⟨hlen, hsum⟩ := hv
  have h1 : (v.set d (v.getD d 0 + len)).getD 7 0 = v.getD 7 0 :=
    getD_set_ne v d 7 _ (by omega)
  have hlen1 : (v.set d (v.getD d 0 + len)).length = 8 := by
    rw [List.length_set, hlen]
  have hlen2 : ((v.set d (v.getD d 0 + len)).set 7
      ((v.set d (v.getD d 0 + len)).getD 7 0 + len)).length = 8 := by
    rw [List.length_set, hlen1]
  have htop : ((v.set d (v.getD d 0 + len)).set 7
      ((v.set d (v.getD d 0 + len)).getD 7 0 + len)).getD 7 0 =
      v.getD 7 0 + len := by
    rw [getD_set_self _ 7 _ (by omega), h1]
  refine ⟨⟨hlen2, ?_⟩, htop⟩
  rw [htop]
  have htake2 : ((v.set d (v.getD d 0 + len)).set 7
      ((v.set d (v.getD d 0 + len)).getD 7 0 + len)).take 7 =
      (v.take 7).set d (v.getD d 0 + len) := by
    rw [List.set_take, List.set_take]
    have : ((v.take 7).set d (v.getD d 0 + len)).set 7
        ((v.set d (v.getD d 0 + len)).getD 7 0 + len) =
        (v.take 7).set d (v.getD d 0 + len) := by
      apply List.set_eq_of_length_le
      rw [List.length_set, List.length_take]
      omega
    rw [this]
  rw [htake2]
  have hdt : d < (v.take 7).length := by
    rw [List.length_take]
    omega
  rw [sum_set_int _ _ _ hdt, getD_take7 v d hd (by omega), ← hsum]
  omega

theorem rowOK_zero : rowOK (List.replicate 8 0) := by
  constructor
  · rfl
  · decide

theorem lookupTotals_rowOK (totals : List (List Char × List Int)) (code : List Char)
    (h : ∀ kv ∈ totals, rowOK kv.2) : rowOK (lookupTotals totals code) := by
  rw [lookupTotals]
  cases hf : totals.find? (fun kv => kv.1 == code) with
  | none => exact rowOK_zero
  | some kv => exact h kv (List.mem_of_find?_eq_some hf)

theorem setTotals_forall (totals : List (List Char × List Int)) (code : List Char)
    (v : List Int) (h : ∀ kv ∈ totals, rowOK kv.2) (hv : rowOK v) :
    ∀ kv ∈ setTotals totals code v, rowOK kv.2 := by
  induction totals with
  | nil =>
    intro kv hkv
    rw [setTotals] at hkv
    rcases List.mem_cons.mp hkv with rfl | hkv
    · exact hv
    · cases hkv
  | cons kv0 rest ih =>
    intro kv hkv
    obtain ⟨k0, v0⟩ := kv0
    rw [setTotals] at hkv
    split at hkv
    · rcases List.mem_cons.mp hkv with rfl | hkv
      · exact hv
      · exact h kv (List.mem_cons_of_mem _ hkv)
    · rcases List.mem_cons.mp hkv with rfl | hkv
      · exact h _ (List.mem_cons_self _ _)
      · exact ih (fun x hx => h x (List.mem_cons_of_mem _ hx)) kv hkv

theorem dayIndex_lt (w : Fin 7) : dayIndex w < 7 := by
  rw [dayIndex]
  have := w.isLt
  split <;> omega

theorem addPeriod_OK (weekday : Int → Fin 7) (w : ReportWeek) (p : Period)
    (hw : weekOK w) :
    weekOK (addPeriod weekday w p) ∧
      (addPeriod weekday w p).Daily.getD 7 0 = w.Daily.getD 7 0 + p.Length := by
  obtain ⟨hd, ht⟩ := hw
  have hlook := lookupTotals_rowOK w.Totals p.Code ht
  have hrow := row_update (lookupTotals w.Totals p.Code) (dayIndex (weekday p.Begin))
    p.Length hlook (dayIndex_lt _)
  have hdaily := row_update w.Daily (dayIndex (weekday p.Begin)) p.Length hd
    (dayIndex_lt _)
  refine ⟨⟨hdaily.1, ?_⟩, hdaily.2⟩
  exact setTotals_forall w.Totals p.Code _ ht hrow.1

theorem weekOK_fresh (cy cwn : Int) : weekOK (freshWeek cy cwn) := by
  refine ⟨rowOK_zero, ?_⟩
  intro kv hkv
  cases hkv

/-- The running bucket's contribution to the grand total. -/
def cwSum : Option ReportWeek → Int
  | none => 0
  | some w => w.Daily.getD 7 0

theorem sumDurs_cons (p : Period) (ps : List Period) :
    sumDurs (p :: ps) = p.Length + sumDurs ps := by
  simp [sumDurs]

theorem sumDurs_nil : sumDurs [] = 0 := rfl

theorem buildWeeks_OK (isoWeek : Int → Int × Int) (weekday : Int → Fin 7)
    (ps : List Period) :
    ∀ (cw : Option ReportWeek), (∀ w, cw = some w → weekOK w) →
      (∀ w ∈ buildWeeks isoWeek weekday cw ps, weekOK w) ∧
        sumWeeks (buildWeeks isoWeek weekday cw ps) = cwSum cw + sumDurs ps := by
  induction ps with
  | nil =>
    intro cw hcw
    cases cw with
    | none =>
      refine ⟨?_, ?_⟩
      · intro w hw
        cases hw
      · simp [buildWeeks, sumWeeks, sumDurs, cwSum]
    | some w =>
      refine ⟨?_, ?_⟩
      · intro w' hw'
        rw [buildWeeks] at hw'
        rcases List.mem_cons.mp hw' with rfl | hw'
        · exact hcw w' rfl
        · cases hw'
      · simp [buildWeeks, sumWeeks, sumDurs, cwSum]
  | cons p rest ih =>
    intro cw hcw
    have hfreshOK := addPeriod_OK weekday
      (freshWeek (isoWeek p.Begin).1 (isoWeek p.Begin).2) p (weekOK_fresh _ _)
    have hfresh0 : (freshWeek (isoWeek p.Begin).1 (isoWeek p.Begin).2).Daily.getD 7 0 = 0 :=
      rfl
    cases cw with
    | none =>
      have hrec := ih (some (addPeriod weekday
        (freshWeek (isoWeek p.Begin).1 (isoWeek p.Begin).2) p))
        (fun w hw => by cases hw; exact hfreshOK.1)
      rw [buildWeeks]
      refine ⟨hrec.1, ?_⟩
      rw [hrec.2]
      rw [show cwSum (some (addPeriod weekday
        (freshWeek (isoWeek p.Begin).1 (isoWeek p.Begin).2) p)) =
        (addPeriod weekday (freshWeek (isoWeek p.Begin).1 (isoWeek p.Begin).2)
          p).Daily.getD 7 0 from rfl, hfreshOK.2, hfresh0]
      rw [show cwSum none = 0 from rfl, sumDurs_cons]
      omega
    | some w =>
      rw [buildWeeks]
      split
      · have hrec := ih (some (addPeriod weekday
          (freshWeek (isoWeek p.Begin).1 (isoWeek p.Begin).2) p))
          (fun w' hw' => by cases hw'; exact hfreshOK.1)
        refine ⟨?_, ?_⟩
        · intro w' hw'
          rcases List.mem_cons.mp hw' with rfl | hw'
          · exact hcw w' rfl
          · exact hrec.1 w' hw'
        · rw [sumWeeks, List.map_cons, List.sum_cons]
          rw [show ((buildWeeks isoWeek weekday (some (addPeriod weekday
              (freshWeek (isoWeek p.Begin).1 (isoWeek p.Begin).2) p)) rest).map
                (fun w => w.Daily.getD 7 0)).sum =
              sumWeeks (buildWeeks isoWeek weekday (some (addPeriod weekday
                (freshWeek (isoWeek p.Begin).1 (isoWeek p.Begin).2) p)) rest) from rfl]
          rw [hrec.2]
          rw [show cwSum (some (addPeriod weekday
            (freshWeek (isoWeek p.Begin).1 (isoWeek p.Begin).2) p)) =
            (addPeriod weekday (freshWeek (isoWeek p.Begin).1 (isoWeek p.Begin).2)
              p).Daily.getD 7 0 from rfl, hfreshOK.2, hfresh0]
          rw [show cwSum (some w) = w.Daily.getD 7 0 from rfl, sumDurs_cons]
          omega
      · have haddOK := addPeriod_OK weekday w p (hcw w rfl)
        have hrec := ih (some (addPeriod weekday w p))
          (fun w' hw' => by cases hw'; exact haddOK.1)
        refine ⟨hrec.1, ?_⟩
        rw [hrec.2]
        rw [show cwSum (some (addPeriod weekday w p)) =
          (addPeriod weekday w p).Daily.getD 7 0 from rfl, haddOK.2]
        rw [show cwSum (some w) = w.Daily.getD 7 0 from rfl, sumDurs_cons]
        omega

mutual
theorem filterOut_eq (p : List Period) (n : TimecodeTreeNode) :
    filterOutNode p n = p.filter (fun per => per.Code ∉ subtreeSelves n) := by
  match n with
  | .node self kids =>
    rw [filterOutNode, FilterOutPeriods, filterOutKids_eq p kids, List.filter_filter]
    apply List.filter_congr
    intro per _
    simp [subtreeSelves, List.mem_cons, not_or, Bool.and_comm]

theorem filterOutKids_eq (p : List Period) (kids : KidList) :
    filterOutKids p kids = p.filter (fun per => per.Code ∉ kidsSelves kids) := by
  match kids with
  | .nil =>
    rw [filterOutKids, kidsSelves]
    have : (fun per : Period => decide (per.Code ∉ ([] : List (List Char)))) =
        fun _ : Period => true := by
      funext per
      simp
    rw [this, List.filter_true]
  | .cons k c rest =>
    rw [filterOutKids, filterOutKids_eq (filterOutNode p c) rest, filterOut_eq p c,
      List.filter_filter]
    apply List.filter_congr
    intro per _
    simp [kidsSelves, List.mem_append, not_or, Bool.and_comm]
end

theorem filter_mem_append_perm (P : List Period) (l1 l2 : List (List Char))
    (hdisj : ∀ s, s ∈ l1 → s ∈ l2 → False) :
    (P.filter (fun per => per.Code ∈ l1) ++ P.filter (fun per => per.Code ∈ l2)).Perm
      (P.filter (fun per => per.Code ∈ l1 ∨ per.Code ∈ l2)) := by
  induction P with
  | nil => simp
  | cons x P ih =>
    by_cases h1 : x.Code ∈ l1
    · have h2 : x.Code ∉ l2 := fun h => hdisj _ h1 h
      simp only [List.filter_cons, decide_eq_true_eq, if_pos h1, if_neg h2,
        decide_eq_true_eq, if_pos (Or.inl h1 : x.Code ∈ l1 ∨ x.Code ∈ l2),
        List.cons_append]
      exact ih.cons x
    · by_cases h2 : x.Code ∈ l2
      · simp only [List.filter_cons, decide_eq_true_eq, if_neg h1, if_pos h2,
          if_pos (Or.inr h2 : x.Code ∈ l1 ∨ x.Code ∈ l2)]
        exact List.perm_middle.trans (ih.cons x)
      · have h12 : ¬(x.Code ∈ l1 ∨ x.Code ∈ l2) := by
          intro h
          rcases h with h | h
          · exact h1 h
          · exact h2 h
        simp only [List.filter_cons, decide_eq_true_eq, if_neg h1, if_neg h2,
          if_neg h12]
        exact ih

mutual
theorem filterIn_perm (p : List Period) (n : TimecodeTreeNode)
    (hnd : (subtreeSelves n).Nodup) :
    (filterInNode p n).Perm (p.filter (fun per => per.Code ∈ subtreeSelves n)) := by
  match n with
  | .node self kids =>
    rw [subtreeSelves] at hnd ⊢
    obtain ⟨hself, hkids⟩ := List.nodup_cons.mp hnd
    rw [filterInNode, FilterInPeriods]
    have h1 : (filterInKids p kids).Perm
        (p.filter (fun per => per.Code ∈ kidsSelves kids)) :=
      filterInKids_perm p kids hkids
    have h2 : (p.filter (fun per => per.Code = self)) =
        (p.filter (fun per => per.Code ∈ ([self] : List (List Char)))) := by
      apply List.filter_congr
      intro per _
      simp
    rw [h2]
    refine (h1.append (List.Perm.refl _)).trans ?_
    refine (filter_mem_append_perm p (kidsSelves kids) [self] ?_).trans ?_
    · intro s hs1 hs2
      rw [List.mem_singleton] at hs2
      subst hs2
      exact hself hs1
    · have : (p.filter (fun per => per.Code ∈ kidsSelves kids ∨
          per.Code ∈ ([self] : List (List Char)))) =
          (p.filter (fun per => per.Code ∈ self :: kidsSelves kids)) := by
        apply List.filter_congr
        intro per _
        rw [decide_eq_decide]
        simp [or_comm]
      rw [this]

theorem filterInKids_perm (p : List Period) (kids : KidList)
    (hnd : (kidsSelves kids).Nodup) :
    (filterInKids p kids).Perm (p.filter (fun per => per.Code ∈ kidsSelves kids)) := by
  match kids with
  | .nil =>
    rw [filterInKids, kidsSelves]
    simp
  | .cons k c rest =>
    rw [kidsSelves] at hnd ⊢
    obtain ⟨hc, hrest, hdisj⟩ := List.nodup_append.mp hnd
    rw [filterInKids]
    have h1 := filterIn_perm p c hc
    have h2 := filterInKids_perm p rest hrest
    refine (h1.append h2).trans ?_
    refine (filter_mem_append_perm p (subtreeSelves c) (kidsSelves rest) ?_).trans ?_
    · intro s hs1 hs2
      exact hdisj hs1 hs2
    · apply List.Perm.of_eq
      apply List.filter_congr
      intro per _
      rw [decide_eq_decide]
      simp
end

mutual
/-- The structural invariant of generated trees (spec section 3): a node
reached by segments `s1 … sk` has `Self` equal to their colon-join.
`pre` is the join of the path so far. -/
def GoodTree : List Char → TimecodeTreeNode → Prop
  | pre, .node self kids => self = pre ∧ GoodKids pre kids

/-- The kid-list side of `GoodTree`: segment keys are colon-free and
unrepeated, and each child satisfies the invariant at the extended path. -/
def GoodKids : List Char → KidList → Prop
  | _, .nil => True
  | pre, .cons k c rest =>
    (':' ∉ k) ∧ GoodTree (pre ++ ':' :: k) c ∧ findKid rest k = none ∧ GoodKids pre rest
end

/-- The invariant at the root, whose sentinel `Self` is outside the
pattern: each root child's path is just its own key. -/
def GoodRootKids : KidList → Prop
  | .nil => True
  | .cons k c rest => (':' ∉ k) ∧ GoodTree k c ∧ findKid rest k = none ∧ GoodRootKids rest

/-- Root form of the invariant. -/
def GoodRoot : TimecodeTreeNode → Prop
  | .node _ kids => GoodRootKids kids

theorem splitColon_ne_nil (l : List Char) : splitColon l ≠ [] := by
  cases l with
  | nil => simp [splitColon]
  | cons c rest =>
    rw [splitColon]
    split
    · simp
    · split <;> simp

theorem splitColon_no_colon (l : List Char) : ∀ s ∈ splitColon l, ':' ∉ s := by
  induction l with
  | nil =>
    intro s hs
    rw [splitColon] at hs
    rcases List.mem_cons.mp hs with rfl | hs
    · simp
    · cases hs
  | cons c rest ih =>
    intro s hs
    rw [splitColon] at hs
    split at hs
    · rcases List.mem_cons.mp hs with rfl | hs
      · simp
      · exact ih s hs
    · next hc =>
      split at hs
      · next s0 ss heq =>
        rcases List.mem_cons.mp hs with rfl | hs
        · intro hmem
          rcases List.mem_cons.mp hmem with h | h
          · exact hc h.symm
          · exact ih s0 (heq ▸ List.mem_cons_self s0 ss) h
        · exact ih s (heq ▸ List.mem_cons_of_mem s0 hs)
      · next heq =>
        exact absurd heq (splitColon_ne_nil rest)

theorem findKid_storeKid_ne (kids : KidList) (part k : List Char)
    (c : TimecodeTreeNode) (h : k ≠ part) :
    findKid (storeKid kids part c) k = findKid kids k := by
  match kids with
  | .nil =>
    have hne : ¬ part = k := fun hx => h hx.symm
    simp [storeKid, findKid, h, hne]
  | .cons k0 c0 rest =>
    rw [storeKid]
    split
    · next hk0 =>
      subst hk0
      rw [findKid, findKid, if_neg (by intro hx; exact h hx.symm),
        if_neg (by intro hx; exact h hx.symm)]
    · rw [findKid, findKid]
      split
      · rfl
      · exact findKid_storeKid_ne rest part k c h

theorem findKid_good (pre : List Char) (kids : KidList) (part : List Char)
    (c : TimecodeTreeNode) (hg : GoodKids pre kids) (h : findKid kids part = some c) :
    GoodTree (pre ++ ':' :: part) c := by
  match kids with
  | .nil => cases h
  | .cons k0 c0 rest =>
    rw [findKid] at h
    obtain ⟨hk0, hc0, hfind, hrest⟩ := hg
    split at h
    · next heq =>
      rw [Option.some.injEq] at h
      subst h
      subst heq
      exact hc0
    · exact findKid_good pre rest part c hrest h

theorem findKid_goodRoot (kids : KidList) (part : List Char) (c : TimecodeTreeNode)
    (hg : GoodRootKids kids) (h : findKid kids part = some c) : GoodTree part c := by
  match kids with
  | .nil => cases h
  | .cons k0 c0 rest =>
    rw [findKid] at h
    obtain ⟨hk0, hc0, hfind, hrest⟩ := hg
    split at h
    · next heq =>
      rw [Option.some.injEq] at h
      subst h
      subst heq
      exact hc0
    · exact findKid_goodRoot rest part c hrest h

theorem storeKid_good (pre : List Char) (kids : KidList) (part : List Char)
    (c' : TimecodeTreeNode) (hg : GoodKids pre kids) (hpart : ':' ∉ part)
    (hc' : GoodTree (pre ++ ':' :: part) c') :
    GoodKids pre (storeKid kids part c') := by
  match kids with
  | .nil => exact ⟨hpart, hc', rfl, trivial⟩
  | .cons k0 c0 rest =>
    obtain ⟨hk0, hc0, hfind, hrest⟩ := hg
    rw [storeKid]
    split
    · next heq =>
      subst heq
      exact ⟨hk0, hc', hfind, hrest⟩
    · next hne =>
      refine ⟨hk0, hc0, ?_, storeKid_good pre rest part c' hrest hpart hc'⟩
      rw [findKid_storeKid_ne rest part k0 c' (by intro hx; exact hne hx)]
      exact hfind

theorem storeKid_goodRoot (kids : KidList) (part : List Char) (c' : TimecodeTreeNode)
    (hg : GoodRootKids kids) (hpart : ':' ∉ part) (hc' : GoodTree part c') :
    GoodRootKids (storeKid kids part c') := by
  match kids with
  | .nil => exact ⟨hpart, hc', rfl, trivial⟩
  | .cons k0 c0 rest =>
    obtain ⟨hk0, hc0, hfind, hrest⟩ := hg
    rw [storeKid]
    split
    · next heq =>
      subst heq
      exact ⟨hk0, hc', hfind, hrest⟩
    · next hne =>
      refine ⟨hk0, hc0, ?_, storeKid_goodRoot rest part c' hrest hpart hc'⟩
      rw [findKid_storeKid_ne rest part k0 c' (by intro hx; exact hne hx)]
      exact hfind

theorem insertParts_good (parts : List (List Char)) :
    ∀ (pre : List Char) (t : TimecodeTreeNode),
      (∀ s ∈ parts, ':' ∉ s) → GoodTree pre t →
      GoodTree pre (insertParts pre false parts t) := by
  induction parts with
  | nil =>
    intro pre t _ ht
    exact ht
  | cons part rest ih =>
    intro pre t hparts ht
    obtain ⟨self, kids⟩ := t
    obtain ⟨hself, hkids⟩ := ht
    rw [insertParts]
    simp only [if_neg (Bool.false_ne_true)]
    have hpp : pre ++ [':'] ++ part = pre ++ ':' :: part := by simp
    rw [hpp]
    constructor
    · exact hself
    · apply storeKid_good pre kids part _ hkids (hparts part (List.mem_cons_self _ _))
      apply ih (pre ++ ':' :: part) _ (fun s hs => hparts s (List.mem_cons_of_mem _ hs))
      cases hfind : findKid kids part with
      | some c => exact findKid_good pre kids part c hkids hfind
      | none => exact ⟨rfl, trivial⟩

theorem insertRoot_good (parts : List (List Char)) (t : TimecodeTreeNode)
    (hparts : ∀ s ∈ parts, ':' ∉ s) (hroot : GoodRoot t) :
    GoodRoot (insertParts [] true parts t) := by
  cases parts with
  | nil => exact hroot
  | cons part rest =>
    obtain ⟨self, kids⟩ := t
    rw [insertParts]
    simp only [if_pos rfl]
    rw [GoodRoot] at hroot ⊢
    apply storeKid_goodRoot kids part _ hroot (hparts part (List.mem_cons_self _ _))
    have hnil : ([] : List Char) ++ part = part := List.nil_append part
    have hgood : GoodTree ([] ++ part) (insertParts ([] ++ part) false rest
        (match findKid kids part with
         | some c => c
         | none => .node ([] ++ part) .nil)) := by
      apply insertParts_good rest ([] ++ part) _
        (fun s hs => hparts s (List.mem_cons_of_mem _ hs))
      cases hfind : findKid kids part with
      | some c =>
        rw [hnil]
        exact findKid_goodRoot kids part c hroot hfind
      | none => exact ⟨rfl, trivial⟩
    rw [hnil] at hgood
    exact hgood

theorem generate_goodRoot (codes : List (List Char)) :
    GoodRoot (GenerateTimecodeTree codes) := by
  rw [GenerateTimecodeTree]
  have base : GoodRoot (.node ['-'] .nil) := trivial
  generalize hstart : (TimecodeTreeNode.node ['-'] .nil) = t0 at base
  clear hstart
  induction codes generalizing t0 with
  | nil => exact base
  | cons code rest ih =>
    rw [List.foldl_cons]
    exact ih _ (insertRoot_good (splitColon code) t0 (splitColon_no_colon code) base)

theorem lookup_good (parts : List (List Char)) :
    ∀ (t : TimecodeTreeNode) (pre : List Char), GoodTree pre t →
      ∀ n, lookupCode t parts = some n → ∃ q, GoodTree q n := by
  induction parts with
  | nil =>
    intro t pre ht n h
    rw [lookupCode, Option.some.injEq] at h
    subst h
    exact ⟨pre, ht⟩
  | cons part rest ih =>
    intro t pre ht n h
    obtain ⟨self, kids⟩ := t
    rw [lookupCode] at h
    split at h
    · cases h
    · next c hfind =>
      exact ih c (pre ++ ':' :: part) (findKid_good pre kids part c ht.2 hfind) n h

theorem lookupRoot_good (t : TimecodeTreeNode) (hroot : GoodRoot t) (code : List Char)
    (n : TimecodeTreeNode) (h : lookupCode t (splitColon code) = some n) :
    ∃ q, GoodTree q n := by
  cases hsplit : splitColon code with
  | nil => exact absurd hsplit (splitColon_ne_nil code)
  | cons part rest =>
    rw [hsplit] at h
    obtain ⟨self, kids⟩ := t
    rw [lookupCode] at h
    split at h
    · cases h
    · next c hfind =>
      exact lookup_good rest c part (findKid_goodRoot kids part c hroot hfind) n h

mutual
theorem selves_shape (t : TimecodeTreeNode) (q : List Char) (hg : GoodTree q t) :
    ∀ s ∈ subtreeSelves t, s = q ∨ ∃ u, s = q ++ ':' :: u := by
  match t with
  | .node self kids =>
    intro s hs
    rw [subtreeSelves] at hs
    rcases List.mem_cons.mp hs with rfl | hs
    · exact Or.inl hg.1
    · obtain ⟨u, hu⟩ := kidsSelves_shape kids q hg.2 s hs
      exact Or.inr ⟨u, hu⟩

theorem kidsSelves_shape (kids : KidList) (q : List Char) (hg : GoodKids q kids) :
    ∀ s ∈ kidsSelves kids, ∃ u, s = q ++ ':' :: u := by
  match kids with
  | .nil =>
    intro s hs
    cases hs
  | .cons k c rest =>
    intro s hs
    rw [kidsSelves] at hs
    obtain ⟨hk, hc, hfind, hrest⟩ := hg
    rcases List.mem_append.mp hs with hs | hs
    · rcases selves_shape c (q ++ ':' :: k) hc s hs with rfl | ⟨u, hu⟩
      · exact ⟨k, rfl⟩
      · refine ⟨k ++ ':' :: u, ?_⟩
        rw [hu]
        simp
    · exact kidsSelves_shape rest q hrest s hs
end

theorem takeSeg_eq (k : List Char) (hk : ':' ∉ k) (t : List Char)
    (ht : t = [] ∨ ∃ u, t = ':' :: u) :
    (k ++ t).takeWhile (fun c => c ≠ ':') = k := by
  induction k with
  | nil =>
    rcases ht with rfl | ⟨u, rfl⟩
    · rfl
    · simp [List.takeWhile]
  | cons c k ih =>
    have hc : c ≠ ':' := by
      intro hx
      exact hk (hx ▸ List.mem_cons_self c k)
    rw [List.cons_append, List.takeWhile_cons,
      if_pos (by simp [hc]), ih (fun hx => hk (List.mem_cons_of_mem c hx))]

/-- The shape of a self string inside a kid of a kid-list with prefix `q`:
the key it sits under, followed by nothing or a colon-led tail. -/
def shapedUnder (q : List Char) (kids : KidList) (s : List Char) : Prop :=
  ∃ k c t0, findKid kids k = some c ∧ (':' ∉ k) ∧
    (t0 = [] ∨ ∃ u, t0 = ':' :: u) ∧ s = q ++ ':' :: (k ++ t0)

theorem findKid_cons_of_tail (kids : KidList) (k0 : List Char) (c0 : TimecodeTreeNode)
    (k : List Char) (c : TimecodeTreeNode) (h : findKid kids k = some c) :
    ∃ c', findKid (KidList.cons k0 c0 kids) k = some c' := by
  rw [findKid]
  split
  · exact ⟨c0, rfl⟩
  · exact ⟨c, h⟩

mutual
theorem selves_nodup (t : TimecodeTreeNode) (q : List Char) (hg : GoodTree q t) :
    (subtreeSelves t).Nodup := by
  match t with
  | .node self kids =>
    rw [subtreeSelves, List.nodup_cons]
    constructor
    · intro hmem
      obtain ⟨u, hu⟩ := kidsSelves_shape kids q hg.2 self hmem
      have hlen := congrArg List.length hu
      rw [hg.1] at hlen
      simp at hlen
    · exact kidsSelves_nodup kids q hg.2

theorem kidsSelves_nodup (kids : KidList) (q : List Char) (hg : GoodKids q kids) :
    (kidsSelves kids).Nodup := by
  match kids with
  | .nil => exact List.nodup_nil
  | .cons k c rest =>
    obtain ⟨hk, hc, hfind, hrest⟩ := hg
    rw [kidsSelves, List.nodup_append]
    refine ⟨selves_nodup c (q ++ ':' :: k) hc, kidsSelves_nodup rest q hrest, ?_⟩
    intro s hs1 hs2
    obtain ⟨k2, c2, t2, hfind2, hk2, ht2, hs⟩ := kidsSelves_shaped rest q hrest s hs2
    rcases selves_shape c (q ++ ':' :: k) hc s hs1 with rfl | ⟨u, hu⟩
    · have hcan : ':' :: k = ':' :: (k2 ++ t2) :=
        List.append_cancel_left hs
      rw [List.cons.injEq] at hcan
      have hk12 : k = k2 := by
        have h1 : (k ++ ([] : List Char)).takeWhile (fun c => c ≠ ':') = k :=
          takeSeg_eq k hk [] (Or.inl rfl)
        have h2 : (k2 ++ t2).takeWhile (fun c => c ≠ ':') = k2 :=
          takeSeg_eq k2 hk2 t2 ht2
        rw [List.append_nil] at h1
        rw [← h1, hcan.2, h2]
      rw [hk12] at hfind
      rw [hfind] at hfind2
      cases hfind2
    · have hs' : q ++ ':' :: (k ++ ':' :: u) = q ++ ':' :: (k2 ++ t2) := by
        rw [← hs, hu]
        simp
      have hcan := List.append_cancel_left hs'
      rw [List.cons.injEq] at hcan
      have hk12 : k = k2 := by
        have h1 : (k ++ ':' :: u).takeWhile (fun c => c ≠ ':') = k :=
          takeSeg_eq k hk (':' :: u) (Or.inr ⟨u, rfl⟩)
        have h2 : (k2 ++ t2).takeWhile (fun c => c ≠ ':') = k2 :=
          takeSeg_eq k2 hk2 t2 ht2
        rw [← h1, hcan.2, h2]
      rw [hk12] at hfind
      rw [hfind] at hfind2
      cases hfind2

theorem kidsSelves_shaped (kids : KidList) (q : List Char) (hg : GoodKids q kids) :
    ∀ s ∈ kidsSelves kids, shapedUnder q kids s := by
  match kids with
  | .nil =>
    intro s hs
    cases hs
  | .cons k c rest =>
    intro s hs
    obtain ⟨hk, hc, hfind, hrest⟩ := hg
    rw [kidsSelves] at hs
    rcases List.mem_append.mp hs with hs | hs
    · rcases selves_shape c (q ++ ':' :: k) hc s hs with rfl | ⟨u, hu⟩
      · refine ⟨k, c, [], ?_, hk, Or.inl rfl, by simp⟩
        rw [findKid, if_pos rfl]
      · refine ⟨k, c, ':' :: u, ?_, hk, Or.inr ⟨u, rfl⟩, ?_⟩
        · rw [findKid, if_pos rfl]
        · rw [hu]
          simp
    · obtain ⟨k2, c2, t2, hfind2, hk2, ht2, hs'⟩ := kidsSelves_shaped rest q hrest s hs
      obtain ⟨c', hc'⟩ := findKid_cons_of_tail rest k c k2 c2 hfind2
      exact ⟨k2, c', t2, hc', hk2, ht2, hs'⟩
end

theorem sorted_getElem_At_le (l : TimeLog) (hs : List.Sorted byAt l)
    (i j : Nat) (hij : i ≤ j) (hj : j < l.length) :
    (l.getD i ⟨0, [], []⟩).At ≤ (l.getD j ⟨0, [], []⟩).At := by
  have hi : i < l.length := lt_of_le_of_lt hij hj
  rw [List.getD_eq_getElem _ _ hi, List.getD_eq_getElem _ _ hj]
  rcases Nat.lt_or_ge i j with h | h
  · exact List.pairwise_iff_getElem.mp hs i j hi hj h
  · have hij' : i = j := le_antisymm hij h
    subst hij'
    exact le_refl _

theorem sortLog_getD_mono (log : TimeLog) (i j : Nat) (hij : i ≤ j)
    (hj : j < (SortLog log).length) :
    ((SortLog log).getD i ⟨0, [], []⟩).At ≤ ((SortLog log).getD j ⟨0, [], []⟩).At :=
  sorted_getElem_At_le (SortLog log) (sortLog_sorted log) i j hij hj

theorem mem_sortLog_bounds (log : TimeLog) (e : Event) (he : e ∈ log) :
    ((SortLog log).getD 0 ⟨0, [], []⟩).At ≤ e.At ∧
      e.At ≤ ((SortLog log).getD ((SortLog log).length - 1) ⟨0, [], []⟩).At := by
  have he' : e ∈ SortLog log := (sortLog_perm log).mem_iff.mpr he
  obtain ⟨k, hk, hke⟩ := List.mem_iff_getElem.mp he'
  have hke' : ((SortLog log).getD k ⟨0, [], []⟩) = e := by
    rw [List.getD_eq_getElem _ _ hk, hke]
  constructor
  · rw [← hke']
    exact sortLog_getD_mono log 0 k (Nat.zero_le k) hk
  · rw [← hke']
    exact sortLog_getD_mono log k ((SortLog log).length - 1) (by omega) (by omega)

theorem generated_subtree_nodup (codes : List (List Char)) (c : List Char)
    (n : TimecodeTreeNode)
    (h : lookupCode (GenerateTimecodeTree codes) (splitColon c) = some n) :
    (subtreeSelves n).Nodup := by
  obtain ⟨q, hq⟩ := lookupRoot_good _ (generate_goodRoot codes) c n h
  exact selves_nodup n q hq

end Calc

/-!
## The claims

One theorem per claim, stated over the embedded definitions above.
-/

/-- Claim C1, as literally stated: an event whose description carries a
leading space — free of `]` and newline — does not round-trip, because the
parser's trim step removes the space.  The claim's "only the cosmetic
left-padding of the code column" is therefore not the only difference
stripped on reparse. -/
theorem claim_C1_counterexample :
    (∀ e ∈ ([⟨⟨2023, 7, 6, 9, 36⟩, ['A'], [' ', 'x']⟩] : Timelog.TimeLog),
        Timelog.validTime e.At ∧ (∀ c ∈ e.Code, c ≠ ']' ∧ c ≠ '\n') ∧
        (∀ c ∈ e.Desc, c ≠ ']' ∧ c ≠ '\n')) ∧
    Timelog.parseTimeLog (Timelog.FormatLog [⟨⟨2023, 7, 6, 9, 36⟩, ['A'], [' ', 'x']⟩]) ≠
      .ok [⟨⟨2023, 7, 6, 9, 36⟩, ['A'], [' ', 'x']⟩] := by
  constructor
  · decide
  · rw [Timelog.parseTimeLog_eval]
    decide

/-- Claim C1 (amended): the serializer/parser round trip holds for every
log whose events have calendar-valid timestamps and whose codes and
descriptions are free of `]` and newline AND carry no leading or trailing
space or tab (the parser eats leading whitespace and trims both fields). -/
theorem claim_C1_roundTrip (log : Timelog.TimeLog)
    (h : ∀ e ∈ log,
      Timelog.validTime e.At ∧ Timelog.okField e.Code ∧ Timelog.okField e.Desc) :
    Timelog.parseTimeLog (Timelog.FormatLog log) = .ok log :=
  Timelog.FormatLog_roundTrip log h

/-- Witness for C1: the amended round trip at a concrete one-event log. -/
theorem claim_C1_roundTrip_witness :
    (∀ e ∈ ([⟨⟨2023, 7, 6, 9, 36⟩, ['A'], ['x']⟩] : Timelog.TimeLog),
        Timelog.validTime e.At ∧ Timelog.okField e.Code ∧ Timelog.okField e.Desc) ∧
    Timelog.parseTimeLog (Timelog.FormatLog [⟨⟨2023, 7, 6, 9, 36⟩, ['A'], ['x']⟩]) =
      .ok [⟨⟨2023, 7, 6, 9, 36⟩, ['A'], ['x']⟩] :=
  ⟨by decide, claim_C1_roundTrip [⟨⟨2023, 7, 6, 9, 36⟩, ['A'], ['x']⟩] (by decide)⟩

/-- Claim C2, as literally stated: a syntactically well-formed date whose
fields fail `time.ParseInLocation`'s range checks (month 13) produces a
fourth error kind, `TimeErr`, which carries no line number — so the parser
does not return "exactly one of the three error kinds". -/
theorem claim_C2_counterexample :
    Timelog.ParseTimeLogString "2023/13/06 09:36AM x\n" = .error .TimeErr ∧
    Timelog.ParseErr.lineTag .TimeErr = none := by
  refine ⟨?_, rfl⟩
  rw [Timelog.ParseTimeLogString, Timelog.parseTimeLog_eval]
  decide

/-- Claim C2 (amended): every parse failure is either the time-library
error (which carries no line number) or one of the three structural kinds
`BadDate`, `UnexpectedEnd`, `Malformed`, each carrying a 1-based line
number; and no event list accompanies an error (the result type carries
either events or an error, never both). -/
theorem claim_C2_error_kinds (s : Timelog.Str) (e : Timelog.ParseErr)
    (h : Timelog.parseTimeLog s = .error e) :
    e = .TimeErr ∨ ∃ l, e.lineTag = some l ∧ 1 ≤ l := by
  cases e with
  | BadDate l => exact Or.inr ⟨l, rfl, Timelog.parseTimeLog_err_line s _ l h rfl⟩
  | UnexpectedEnd l => exact Or.inr ⟨l, rfl, Timelog.parseTimeLog_err_line s _ l h rfl⟩
  | Malformed l => exact Or.inr ⟨l, rfl, Timelog.parseTimeLog_err_line s _ l h rfl⟩
  | TimeErr => exact Or.inl rfl

/-- Witness for C2: the error-kind theorem at the concrete failing input
`"x"`, which dies in `parseDate` on line 1. -/
theorem claim_C2_error_kinds_witness :
    Timelog.parseTimeLog ['x'] = .error (.BadDate 1) ∧
    (Timelog.ParseErr.BadDate 1 = .TimeErr ∨
      ∃ l, (Timelog.ParseErr.BadDate 1).lineTag = some l ∧ 1 ≤ l) := by
  have h : Timelog.parseTimeLog ['x'] = .error (.BadDate 1) := by
    rw [Timelog.parseTimeLog_eval]
    decide
  exact ⟨h, claim_C2_error_kinds ['x'] (.BadDate 1) h⟩

/-- Claim C3: sorting is an ascending reorder by timestamp, a permutation
of the input, idempotent, and stable (events with equal timestamps keep
their relative order, captured by filtering at each timestamp). -/
theorem claim_C3_sort (log : Calc.TimeLog) :
    List.Sorted Calc.byAt (Calc.SortLog log) ∧ (Calc.SortLog log).Perm log ∧
      Calc.SortLog (Calc.SortLog log) = Calc.SortLog log ∧
      ∀ t : Int, (Calc.SortLog log).filter (fun e => e.At = t) =
        log.filter (fun e => e.At = t) :=
  ⟨Calc.sortLog_sorted log, Calc.sortLog_perm log, Calc.sortLog_idem log,
    fun t => Calc.sortLog_stable log t⟩

/-- Claim C4: `Periods` of a log of `n` events yields `n - 1` periods
(zero for `n ≤ 1`, by truncated subtraction), the `i`-th having the `i`-th
and `(i+1)`-th sorted timestamps as begin and end and the earlier event's
description and code. -/
theorem claim_C4_periods (log : Calc.TimeLog) :
    (Calc.Periods log).length = log.length - 1 ∧
    ∀ i, i < (Calc.Periods log).length →
      (Calc.Periods log).getD i ⟨0, 0, [], []⟩ =
        ⟨((Calc.SortLog log).getD i ⟨0, [], []⟩).At,
          ((Calc.SortLog log).getD (i + 1) ⟨0, [], []⟩).At,
          ((Calc.SortLog log).getD i ⟨0, [], []⟩).Desc,
          ((Calc.SortLog log).getD i ⟨0, [], []⟩).Code⟩ :=
  ⟨Calc.periods_length log, fun i hi => Calc.periods_getD log i hi⟩

/-- Claim C5, as literally stated: with the tree built from the code set
`{"A"}` and the unknown code `"B"`, both filters return the empty list, so
their union does not reconstruct a nonempty period list — the two filters
do not partition `P` for every code `c`. -/
theorem claim_C5_counterexample :
    ¬ ((Calc.FilterInPeriodsChildren [⟨0, 5, [], ['X']⟩] ['B']
          (Calc.GenerateTimecodeTree [['A']]) ++
        Calc.FilterOutPeriodsChildren [⟨0, 5, [], ['X']⟩] ['B']
          (Calc.GenerateTimecodeTree [['A']])).Perm
      [(⟨0, 5, [], ['X']⟩ : Calc.Period)]) := by
  decide

/-- Claim C5 (amended): when the code `c` is present in the tree built
from a code set (the shared lookup succeeds on some node `n`), the two
subtree filters partition `P`: the out-filter keeps exactly the periods
whose code is not a `Self` of `n`'s subtree, the in-filter is a
permutation of the periods whose code is one, and their union is a
permutation of `P`. -/
theorem claim_C5_partition (codes : List (List Char)) (c : List Char)
    (P : List Calc.Period) (n : Calc.TimecodeTreeNode)
    (h : Calc.lookupCode (Calc.GenerateTimecodeTree codes) (Calc.splitColon c) = some n) :
    Calc.FilterOutPeriodsChildren P c (Calc.GenerateTimecodeTree codes) =
      P.filter (fun per => per.Code ∉ Calc.subtreeSelves n) ∧
    (Calc.FilterInPeriodsChildren P c (Calc.GenerateTimecodeTree codes)).Perm
      (P.filter (fun per => per.Code ∈ Calc.subtreeSelves n)) ∧
    (Calc.FilterInPeriodsChildren P c (Calc.GenerateTimecodeTree codes) ++
      Calc.FilterOutPeriodsChildren P c (Calc.GenerateTimecodeTree codes)).Perm P := by
  have hnd := Calc.generated_subtree_nodup codes c n h
  have hout : Calc.FilterOutPeriodsChildren P c (Calc.GenerateTimecodeTree codes) =
      P.filter (fun per => per.Code ∉ Calc.subtreeSelves n) := by
    simp only [Calc.FilterOutPeriodsChildren, h]
    exact Calc.filterOut_eq P n
  have hin : (Calc.FilterInPeriodsChildren P c (Calc.GenerateTimecodeTree codes)).Perm
      (P.filter (fun per => per.Code ∈ Calc.subtreeSelves n)) := by
    simp only [Calc.FilterInPeriodsChildren, h]
    exact Calc.filterIn_perm P n hnd
  refine ⟨hout, hin, ?_⟩
  rw [hout]
  refine (hin.append (List.Perm.refl _)).trans ?_
  have hneg : P.filter (fun per => per.Code ∉ Calc.subtreeSelves n) =
      P.filter (fun per => !(decide (per.Code ∈ Calc.subtreeSelves n))) := by
    apply List.filter_congr
    intro per _
    simp
  rw [hneg]
  exact List.filter_append_perm _ P

/-- Witness for C5: the amended partition at the tree of the code set
`{"A"}`, the known code `"A"`, and a two-period list. -/
theorem claim_C5_partition_witness :
    Calc.lookupCode (Calc.GenerateTimecodeTree [['A']]) (Calc.splitColon ['A']) =
      some (.node ['A'] .nil) ∧
    (Calc.FilterOutPeriodsChildren [⟨0, 5, [], ['A']⟩, ⟨5, 9, [], ['B']⟩] ['A']
        (Calc.GenerateTimecodeTree [['A']]) =
      List.filter (fun per => per.Code ∉ Calc.subtreeSelves (.node ['A'] .nil))
        [⟨0, 5, [], ['A']⟩, ⟨5, 9, [], ['B']⟩] ∧
    (Calc.FilterInPeriodsChildren [⟨0, 5, [], ['A']⟩, ⟨5, 9, [], ['B']⟩] ['A']
        (Calc.GenerateTimecodeTree [['A']])).Perm
      (List.filter (fun per => per.Code ∈ Calc.subtreeSelves (.node ['A'] .nil))
        [⟨0, 5, [], ['A']⟩, ⟨5, 9, [], ['B']⟩]) ∧
    (Calc.FilterInPeriodsChildren [⟨0, 5, [], ['A']⟩, ⟨5, 9, [], ['B']⟩] ['A']
        (Calc.GenerateTimecodeTree [['A']]) ++
      Calc.FilterOutPeriodsChildren [⟨0, 5, [], ['A']⟩, ⟨5, 9, [], ['B']⟩] ['A']
        (Calc.GenerateTimecodeTree [['A']])).Perm
      [⟨0, 5, [], ['A']⟩, ⟨5, 9, [], ['B']⟩]) :=
  ⟨by decide,
    claim_C5_partition [['A']] ['A'] [⟨0, 5, [], ['A']⟩, ⟨5, 9, [], ['B']⟩]
      (.node ['A'] .nil) (by decide)⟩

/-- Claim C6: `After` keeps exactly the events strictly after `t`,
`Between` is symmetric in its bounds and keeps exactly the events strictly
between the smaller and the larger bound. -/
theorem claim_C6_range_filters (log : Calc.TimeLog) (t t1 t2 : Int) (e : Calc.Event) :
    (e ∈ Calc.After log t ↔ e ∈ log ∧ t < e.At) ∧
    Calc.Between log t1 t2 = Calc.Between log t2 t1 ∧
    (e ∈ Calc.Between log t1 t2 ↔ e ∈ log ∧ min t1 t2 < e.At ∧ e.At < max t1 t2) := by
  refine ⟨?_, ?_, ?_⟩
  · rw [Calc.After]
    simp [List.mem_filter]
  · simp only [Calc.Between]
    rcases lt_trichotomy t1 t2 with h | h | h
    · rw [if_neg (by omega), if_pos h]
    · subst h
      rfl
    · rw [if_pos h, if_neg (by omega)]
  · rw [Calc.Between]
    by_cases h : t2 < t1
    · simp only [if_pos h, List.mem_filter, decide_eq_true_eq]
      constructor
      · rintro ⟨hm, h1, h2⟩
        exact ⟨hm, by omega, by omega⟩
      · rintro ⟨hm, h1, h2⟩
        exact ⟨hm, by omega, by omega⟩
    · simp only [if_neg h, List.mem_filter, decide_eq_true_eq]
      constructor
      · rintro ⟨hm, h1, h2⟩
        exact ⟨hm, by omega, by omega⟩
      · rintro ⟨hm, h1, h2⟩
        exact ⟨hm, by omega, by omega⟩

/-- Claim C7: in every bucket the week aggregator produces, `Daily[7]` is
the sum of `Daily[0..6]` and every code's `Totals[code][7]` is the sum of
its `Totals[code][0..6]`; and the buckets' `Daily[7]` values sum to the
total duration of the input periods.  (Proved for every period list, not
only sorted ones, and for every ISO-week and weekday function.) -/
theorem claim_C7_week_totals (isoWeek : Int → Int × Int) (weekday : Int → Fin 7)
    (ps : List Calc.Period) :
    (∀ w ∈ Calc.GenerateWeeks isoWeek weekday ps,
        w.Daily.getD 7 0 = (w.Daily.take 7).sum ∧
        ∀ kv ∈ w.Totals, kv.2.getD 7 0 = (kv.2.take 7).sum) ∧
    Calc.sumWeeks (Calc.GenerateWeeks isoWeek weekday ps) = Calc.sumDurs ps := by
  have h := Calc.buildWeeks_OK isoWeek weekday ps none (fun w hw => by cases hw)
  rw [Calc.GenerateWeeks]
  refine ⟨?_, ?_⟩
  · intro w hw
    have hok := h.1 w hw
    exact ⟨hok.1.2, fun kv hkv => (hok.2 kv hkv).2⟩
  · rw [h.2, show Calc.cwSum none = 0 from rfl, zero_add]

/-- Claim C8: the single line `"2023/07/06 09:36AM [Unclosed\n"` parses to
the Malformed error on line 1 and no events. -/
theorem claim_C8_malformed :
    Timelog.ParseTimeLogString "2023/07/06 09:36AM [Unclosed\n" =
      .error (.Malformed 1) := by
  rw [Timelog.ParseTimeLogString, Timelog.parseTimeLog_eval]
  decide

/-- Claim C9: a code with an absent segment (the shared tree lookup
returns `none`) makes both subtree filters return the empty list — no
error value exists in their result type. -/
theorem claim_C9_unknown_code (P : List Calc.Period) (c : List Char)
    (tree : Calc.TimecodeTreeNode)
    (h : Calc.lookupCode tree (Calc.splitColon c) = none) :
    Calc.FilterInPeriodsChildren P c tree = [] ∧
    Calc.FilterOutPeriodsChildren P c tree = [] := by
  rw [Calc.FilterInPeriodsChildren, Calc.FilterOutPeriodsChildren, h]
  exact ⟨rfl, rfl⟩

/-- Witness for C9: the unknown code `"B"` against the tree of `{"A"}`,
with a nonempty period list. -/
theorem claim_C9_unknown_code_witness :
    Calc.lookupCode (Calc.GenerateTimecodeTree [['A']]) (Calc.splitColon ['B']) = none ∧
    (Calc.FilterInPeriodsChildren [⟨1, 2, [], ['A']⟩] ['B']
        (Calc.GenerateTimecodeTree [['A']]) = [] ∧
      Calc.FilterOutPeriodsChildren [⟨1, 2, [], ['A']⟩] ['B']
        (Calc.GenerateTimecodeTree [['A']]) = []) :=
  ⟨by decide,
    claim_C9_unknown_code [⟨1, 2, [], ['A']⟩] ['B'] (Calc.GenerateTimecodeTree [['A']])
      (by decide)⟩

/-- Claim C10: for a log of at least two events the derived periods are
chronologically chained — every period has `Begin ≤ End`, each period's
`End` is the next period's `Begin`, and the chain starts at or below every
event's timestamp and ends at or above it (it tiles the span from the
earliest to the latest timestamp with no gaps or overlaps). -/
theorem claim_C10_adjacency (log : Calc.TimeLog) (h2 : 2 ≤ log.length) :
    (∀ i, i < (Calc.Periods log).length →
        ((Calc.Periods log).getD i ⟨0, 0, [], []⟩).Begin ≤
          ((Calc.Periods log).getD i ⟨0, 0, [], []⟩).End) ∧
    (∀ i, i + 1 < (Calc.Periods log).length →
        ((Calc.Periods log).getD i ⟨0, 0, [], []⟩).End =
          ((Calc.Periods log).getD (i + 1) ⟨0, 0, [], []⟩).Begin) ∧
    ∀ e ∈ log,
        ((Calc.Periods log).getD 0 ⟨0, 0, [], []⟩).Begin ≤ e.At ∧
        e.At ≤ ((Calc.Periods log).getD
          ((Calc.Periods log).length - 1) ⟨0, 0, [], []⟩).End := by
  have hplen : (Calc.Periods log).length = log.length - 1 := Calc.periods_length log
  have hslen : (Calc.SortLog log).length = log.length := Calc.sortLog_length log
  refine ⟨?_, ?_, ?_⟩
  · intro i hi
    rw [Calc.periods_getD log i hi]
    exact Calc.sortLog_getD_mono log i (i + 1) (by omega) (by omega)
  · intro i hi1
    rw [Calc.periods_getD log i (by omega), Calc.periods_getD log (i + 1) hi1]
  · intro e he
    have h0 : 0 < (Calc.Periods log).length := by omega
    have hlast : (Calc.Periods log).length - 1 < (Calc.Periods log).length := by omega
    rw [Calc.periods_getD log 0 h0, Calc.periods_getD log _ hlast]
    have hbounds := Calc.mem_sortLog_bounds log e he
    refine ⟨hbounds.1, ?_⟩
    have hix : (Calc.Periods log).length - 1 + 1 = (Calc.SortLog log).length - 1 := by
      omega
    rw [hix]
    exact hbounds.2

/-- Witness for C10: the adjacency invariant at a concrete two-event log
given out of order. -/
theorem claim_C10_adjacency_witness :
    2 ≤ ([⟨3, [], []⟩, ⟨1, [], []⟩] : Calc.TimeLog).length ∧
    ((∀ i, i < (Calc.Periods [⟨3, [], []⟩, ⟨1, [], []⟩]).length →
        ((Calc.Periods [⟨3, [], []⟩, ⟨1, [], []⟩]).getD i ⟨0, 0, [], []⟩).Begin ≤
          ((Calc.Periods [⟨3, [], []⟩, ⟨1, [], []⟩]).getD i ⟨0, 0, [], []⟩).End) ∧
    (∀ i, i + 1 < (Calc.Periods [⟨3, [], []⟩, ⟨1, [], []⟩]).length →
        ((Calc.Periods [⟨3, [], []⟩, ⟨1, [], []⟩]).getD i ⟨0, 0, [], []⟩).End =
          ((Calc.Periods [⟨3, [], []⟩, ⟨1, [], []⟩]).getD (i + 1) ⟨0, 0, [], []⟩).Begin) ∧
    ∀ e ∈ ([⟨3, [], []⟩, ⟨1, [], []⟩] : Calc.TimeLog),
        ((Calc.Periods [⟨3, [], []⟩, ⟨1, [], []⟩]).getD 0 ⟨0, 0, [], []⟩).Begin ≤ e.At ∧
        e.At ≤ ((Calc.Periods [⟨3, [], []⟩, ⟨1, [], []⟩]).getD
          ((Calc.Periods [⟨3, [], []⟩, ⟨1, [], []⟩]).length - 1) ⟨0, 0, [], []⟩).End) :=
  ⟨by decide, claim_C10_adjacency [⟨3, [], []⟩, ⟨1, [], []⟩] (by decide)⟩
